import Mathlib

/-!
# The details view of jjui: status parser, selection list, confirmation gate

A shallow embedding of `internal/ui/operations/details/details.go`.

* Go strings are byte sequences (`GoString`); the parser slices them by byte.
* A runtime panic (index out of range, nil dereference) is the result `none`.
* A `tea.Cmd` is a first-order description of the effect it stands for.
* The pointer-shared `context.MainContext` is a field of the state.
-/

namespace Details

/-! ## Go strings and the library functions used by the parser -/

/-- A Go string: an immutable sequence of bytes. -/
abbrev GoString := List UInt8

/-- The UTF-8 bytes of a text literal. -/
def bytes (s : String) : GoString := s.data.flatMap String.utf8EncodeChar

/-- Segments of `s` between the occurrences of the byte `sep`
(`strings.Split` with a one-byte separator): always at least one segment. -/
def splitByte (sep : UInt8) : GoString → List GoString
  | [] => [[]]
  | c :: rest =>
    if c = sep then [] :: splitByte sep rest
    else
      match splitByte sep rest with
      | seg :: segs => (c :: seg) :: segs
      | [] => [[c]]

/-- The call `strings.Split(s, " ")`. -/
def Split (s : GoString) : List GoString := splitByte 32 s

/-- The constant `bufio.MaxScanTokenSize`: the scanner's buffer limit. -/
def maxScanTokenSize : Nat := 64 * 1024

/-- The helper `dropCR` of `bufio`: one trailing carriage return is removed. -/
def dropCR (data : GoString) : GoString :=
  if data.getLast? = some 13 then data.dropLast else data

/-- All tokens a `bufio.Scanner` with the default `ScanLines` split function
yields on `content`, in order: the text between newlines, an empty rest at
the end of input being no token, each token without its trailing carriage
return. A line that does not fit the buffer (`maxScanTokenSize` bytes, newline
included) makes `Scan` return false for good, so the tokens stop before it. -/
def scanLines (content : GoString) : List GoString :=
  let segs := splitByte 10 content
  let segs := if segs.getLast? = some [] then segs.dropLast else segs
  (segs.takeWhile (fun l => decide (l.length < maxScanTokenSize))).map dropCR

/-- One-byte white space of `unicode.IsSpace`: tab, newline, vertical tab,
form feed, carriage return, space. -/
def isSpace1 (a : UInt8) : Bool :=
  a = 9 || a = 10 || a = 11 || a = 12 || a = 13 || a = 32

/-- Two-byte encodings of white space of `unicode.IsSpace`: U+0085, U+00A0. -/
def isSpace2 (a b : UInt8) : Bool :=
  a = 0xC2 && (b = 0x85 || b = 0xA0)

/-- Three-byte encodings of white space of `unicode.IsSpace`: U+1680,
U+2000 to U+200A, U+2028, U+2029, U+202F, U+205F, U+3000. -/
def isSpace3 (a b c : UInt8) : Bool :=
  (a = 0xE1 && b = 0x9A && c = 0x80)
  || (a = 0xE2 && b = 0x80 && ((0x80 ≤ c && c ≤ 0x8A) || c = 0xA8 || c = 0xA9 || c = 0xAF))
  || (a = 0xE2 && b = 0x81 && c = 0x9F)
  || (a = 0xE3 && b = 0x80 && c = 0x80)

/-- Removal of the leading white-space runes (`strings.TrimLeftFunc` with
`unicode.IsSpace`); with `rev` the input is a reversed string and the
multi-byte encodings are read backwards. An invalid or non-space rune stops
the removal. -/
def trimSpaceLeft (rev : Bool) : GoString → GoString
  | [] => []
  | a :: r1 =>
    if isSpace1 a then trimSpaceLeft rev r1 else
    match r1 with
    | [] => [a]
    | b :: r2 =>
      if (if rev then isSpace2 b a else isSpace2 a b) then trimSpaceLeft rev r2 else
      match r2 with
      | [] => [a, b]
      | c :: r3 =>
        if (if rev then isSpace3 c b a else isSpace3 a b c) then trimSpaceLeft rev r3
        else a :: b :: c :: r3

/-- The call `strings.TrimSpace(s)`: leading and trailing white space, as
defined by Unicode, removed. -/
def TrimSpace (s : GoString) : GoString :=
  (trimSpaceLeft true (trimSpaceLeft false s).reverse).reverse

/-- The call `strings.Contains(s, substr)`. -/
def Contains : GoString → GoString → Bool
  | [], substr => substr.isEmpty
  | c :: rest, substr => substr.isPrefixOf (c :: rest) || Contains rest substr

/-! ### The regular expression of the rename notation -/

/-- The pieces of the regular expressions used: a literal byte, a starred
class (greedy or not), and the parentheses of capture group 1. -/
inductive Node where
  | lit (b : UInt8)
  | star (cls : UInt8 → Bool) (greedy : Bool)
  | capOpen
  | capClose

/-- The result of a match: the input left at the opening and at the closing
of group 1, and the input left after the whole match. -/
structure Match where
  capStart : GoString
  capEnd : GoString
  rest : GoString

/-- The text captured by group 1. -/
def Match.group1 (m : Match) : GoString :=
  m.capStart.take (m.capStart.length - m.capEnd.length)

/-- A starred class followed by the continuation `k`, tried in the order of
a backtracking matcher: longest first when greedy, shortest first when not. -/
def starMatch (cls : UInt8 → Bool) (greedy : Bool) (k : GoString → Option Match) :
    GoString → Option Match
  | [] => k []
  | c :: t =>
    if cls c then
      if greedy then
        match starMatch cls greedy k t with
        | some m => some m
        | none => k (c :: t)
      else
        match k (c :: t) with
        | some m => some m
        | none => starMatch cls greedy k t
    else k (c :: t)

/-- The first match, in backtracking order, of the pieces `ns` at the start
of the input (Go's leftmost-first semantics at a fixed start). -/
def matchNodes : List Node → GoString → GoString → GoString → Option Match
  | [], s, cs, ce => some ⟨cs, ce, s⟩
  | Node.lit b :: ns, s, cs, ce =>
    match s with
    | c :: t => if c = b then matchNodes ns t cs ce else none
    | [] => none
  | Node.star cls g :: ns, s, cs, ce => starMatch cls g (fun t => matchNodes ns t cs ce) s
  | Node.capOpen :: ns, s, _, ce => matchNodes ns s s ce
  | Node.capClose :: ns, s, cs, _ => matchNodes ns s cs s

/-- The class `[^}]`. -/
def notCloseBrace (c : UInt8) : Bool := c ≠ 125

/-- The class `\s` of Go regular expressions: tab, newline, form feed,
carriage return, space. -/
def reSpace (c : UInt8) : Bool := c = 9 || c = 10 || c = 12 || c = 13 || c = 32

/-- The expression `\{[^}]*? => \s*([^}]*?)\s*\}` of `createListItems`. -/
def renameRe : List Node :=
  [Node.lit 123, Node.star notCloseBrace false,
   Node.lit 32, Node.lit 61, Node.lit 62, Node.lit 32,
   Node.star reSpace true,
   Node.capOpen, Node.star notCloseBrace false, Node.capClose,
   Node.star reSpace true, Node.lit 125]

/-- The loop of `ReplaceAllString(s, "$1")`: matches are looked for from left
to right, each is replaced by its group 1, the search goes on after it. The
expressions used here match at least one byte. -/
def replaceAllLoop (re : List Node) : Nat → GoString → GoString
  | 0, s => s
  | _ + 1, [] => []
  | fuel + 1, c :: t =>
    match matchNodes re (c :: t) [] [] with
    | some m => m.group1 ++ replaceAllLoop re fuel m.rest
    | none => c :: replaceAllLoop re fuel t

/-- The call `re.ReplaceAllString(s, "$1")`. -/
def ReplaceAllString (re : List Node) (s : GoString) : GoString :=
  replaceAllLoop re s.length s

/-! ### `path.Clean` -/

/-- The inner loop of the `..` case of `path.Clean`: the write index moves
back to the previous slash, not below `dotdot`. -/
def cleanBack (out : GoString) (dotdot : Nat) : Nat → Nat
  | 0 => 0
  | w + 1 => if dotdot < w + 1 ∧ out.get? (w + 1) ≠ some 47 then cleanBack out dotdot w else w + 1

/-- The main loop of `path.Clean` on the unread part of the path, with the
bytes written so far and the index `dotdot`. -/
def cleanLoop (rooted : Bool) : Nat → GoString → GoString → Nat → GoString
  | 0, _, out, _ => out
  | _ + 1, [], out, _ => out
  | fuel + 1, c :: rest, out, dotdot =>
    if c = 47 then
      cleanLoop rooted fuel rest out dotdot
    else if c = 46 ∧ (rest = [] ∨ rest.head? = some 47) then
      cleanLoop rooted fuel rest out dotdot
    else if c = 46 ∧ rest.head? = some 46 ∧ (rest.tail = [] ∨ rest.tail.head? = some 47) then
      if dotdot < out.length then
        cleanLoop rooted fuel rest.tail (out.take (cleanBack out dotdot (out.length - 1))) dotdot
      else if !rooted then
        let out1 := (if 0 < out.length then out ++ [47] else out) ++ [46, 46]
        cleanLoop rooted fuel rest.tail out1 out1.length
      else
        cleanLoop rooted fuel rest.tail out dotdot
    else
      let out1 :=
        if (rooted ∧ out.length ≠ 1) ∨ (!rooted ∧ out.length ≠ 0) then out ++ [47] else out
      cleanLoop rooted fuel ((c :: rest).dropWhile (fun x => x ≠ 47))
        (out1 ++ (c :: rest).takeWhile (fun x => x ≠ 47)) dotdot

/-- The call `path.Clean(p)`. -/
def pathClean (p : GoString) : GoString :=
  match p with
  | [] => [46]
  | c :: rest =>
    let rooted : Bool := c = 47
    let out := if rooted then cleanLoop true p.length rest [47] 1
               else cleanLoop false p.length p [] 0
    if out.length = 0 then [46] else out

/-! ## The data model -/

/-- Modelled from the spec: the type `status` is declared outside details.go.
The spec names five statuses; `unnamed` stands for a value of the type that
none of the five constants has. Which value is the zero value of the type is
not known from details.go: it is the parameter `zero` of the parser. -/
inductive status where
  | Added
  | Deleted
  | Modified
  | Renamed
  | Copied
  | unnamed
  deriving DecidableEq, Repr

open status

/-- Modelled from the spec: the struct `item` is declared outside details.go;
these are the fields `createListItems` fills in. -/
structure item where
  status : status
  name : GoString
  fileName : GoString
  selected : Bool
  conflict : Bool
  deriving DecidableEq, Repr

/-- The revision under inspection (`jj.Commit`): what `GetChangeId()` returns
and the field `CommitId`. -/
structure Commit where
  GetChangeId : GoString
  CommitId : GoString
  deriving DecidableEq, Repr

/-- The record `context.SelectedFile`. -/
structure SelectedFile where
  ChangeId : GoString
  CommitId : GoString
  File : GoString
  deriving DecidableEq, Repr

/-- An entry of the shared registry: a file record of this view, or a record
of another type that belongs to another view. -/
inductive SelectedItem where
  | file (f : SelectedFile)
  | otherType (tag : Nat)
  deriving DecidableEq, Repr

/-- The part of `context.MainContext` the view writes to. -/
structure MainContext where
  CheckedItems : List SelectedItem
  SelectedItem : Option SelectedItem
  deriving DecidableEq, Repr

/-- The argument lists built by the functions of package `jj`. -/
inductive JJ where
  | Snapshot
  | Status (revision : GoString)
  | Diff (revision file : GoString)
  | Split (revision : GoString) (files : List GoString) (parallel : Bool)
  | SplitInteractive (revision file : GoString)
  | Restore (revision : GoString) (files : List GoString)
  | RestoreInteractive (revision file : GoString)
  | Absorb (revision : GoString) (files : List GoString)
  deriving DecidableEq, Repr

/-- The commands without arguments that are also passed as continuations:
`common.Refresh`, `common.Close` and `confirmation.Close`. -/
inductive Effect where
  | Refresh
  | Close
  | ConfirmationClose
  deriving DecidableEq, Repr

/-- A `tea.Cmd`, described by what it does when the runtime runs it. -/
inductive Cmd where
  /-- The nil command. -/
  | nil
  /-- One of `common.Refresh`, `common.Close`, `confirmation.Close`. -/
  | effect (e : Effect)
  /-- The call `context.RunCommand(args, continuations...)`. -/
  | RunCommand (args : JJ) (continuations : List Effect)
  /-- The call `context.RunInteractiveCommand(args, continuation)`. -/
  | RunInteractiveCommand (args : JJ) (continuations : List Effect)
  /-- The call `tea.Batch(a, b)`. -/
  | Batch (a b : Cmd)
  /-- The closure of the Diff key: runs `args` now, yields `ShowDiffMsg`. -/
  | showDiff (args : JJ)
  /-- The closure of the Squash key: yields `StartSquashOperationMsg` with
  the files `getSelectedFiles` returns when the closure runs. -/
  | startSquash (revision : Commit)
  /-- The command `common.UpdateRevSet("files(" + escaped fileName + ")")`. -/
  | updateRevSetFiles (fileName : GoString)
  /-- The command returned by `context.SetSelectedItem`. -/
  | selectionChanged (selected : SelectedItem)
  /-- The closure of a successful `load`: yields `updateCommitStatusMsg` with
  the files `getSelectedFiles` returns when the closure runs. -/
  | updateCommitStatus (summary : GoString)
  /-- The closure of a failed `load`: yields `common.CommandCompletedMsg`. -/
  | commandCompleted (output : GoString) (err : Option GoString)
  /-- The command returned by `confirmation.Model.Init`. -/
  | confirmationInit
  deriving DecidableEq, Repr

/-- A key binding (`key.Binding`). -/
structure Binding where
  keys : List String
  disabled : Bool
  deriving DecidableEq, Repr

/-- The call `key.Matches(msg, b)`: the pressed key is one of the keys of an
enabled binding. -/
def Matches (msg : String) (b : Binding) : Bool :=
  b.keys.any (fun v => msg == v && !b.disabled)

/-- The bindings of `keyMap.Details` used by the view. -/
structure DetailsKeys where
  Close : Binding
  Diff : Binding
  Split : Binding
  SplitParallel : Binding
  Squash : Binding
  Restore : Binding
  Absorb : Binding
  ToggleSelect : Binding
  RevisionsChangingFile : Binding
  deriving DecidableEq, Repr

/-- The bindings of `config.KeyMappings` used by the view. -/
structure KeyMappings where
  Up : Binding
  Down : Binding
  Cancel : Binding
  Refresh : Binding
  Details : DetailsKeys
  deriving DecidableEq, Repr

/-- One option of a confirmation: what `confirmation.WithOption(label, cmd,
binding)` adds. -/
structure ConfirmOption where
  label : String
  cmd : Cmd
  keyBinding : Binding
  deriving DecidableEq, Repr

/-- Modelled from the spec: `confirmation.Model` is declared outside
details.go. A pending confirmation holds the prompt text, the style prefix,
the ordered options and the implicit cancel binding. -/
structure Model where
  messages : List String
  stylePrefix : String
  options : List ConfirmOption
  cancel : Binding
  deriving DecidableEq, Repr

/-- Modelled from the spec: `confirmation.New` is declared outside details.go.
Activation captures the option set, in the order given. -/
def confirmationNew (cancel : Binding) (messages : List String) (stylePrefix : String)
    (options : List ConfirmOption) : Model :=
  { messages := messages, stylePrefix := stylePrefix, options := options, cancel := cancel }

/-- Modelled from the spec: `confirmation.Model.Update` is declared outside
details.go. A key is matched only against the bindings of the active options,
the first match giving its bound effect, and then against the implicit cancel
binding, which closes; the pending confirmation itself is kept. -/
def confirmationUpdate (m : Model) (msg : String) : Model × Cmd :=
  match m.options.find? (fun o => Matches msg o.keyBinding) with
  | some o => (m, o.cmd)
  | none => if Matches msg m.cancel then (m, Cmd.effect Effect.ConfirmationClose) else (m, Cmd.nil)

/-- The state of the view: the embedded `DetailsList` (files, cursor, hints)
and the fields of `Operation` that `Update` reads or writes. -/
structure Operation where
  files : List item
  cursor : Nat
  selectedHint : String
  unselectedHint : String
  context : MainContext
  revision : Commit
  confirmation : Option Model
  keyMap : KeyMappings
  deriving DecidableEq, Repr

/-- The messages `Update` distinguishes. -/
inductive Msg where
  | CloseMsg
  | RefreshMsg
  | updateCommitStatusMsg (summary : GoString) (selectedFiles : List GoString)
  | KeyMsg (key : String)
  | CommandCompletedMsg (output : GoString) (err : Option GoString)
  | CloseViewMsg
  | otherMsg (tag : Nat)
  deriving DecidableEq, Repr

/-- The message each of the commands without arguments yields when the
runtime runs it. -/
def Effect.msg : Effect → Msg
  | Effect.Refresh => Msg.RefreshMsg
  | Effect.Close => Msg.CloseViewMsg
  | Effect.ConfirmationClose => Msg.CloseMsg

/-- The result of `context.RunCommandImmediate`: output and error. -/
structure CmdResult where
  output : GoString
  err : Option GoString
  deriving DecidableEq, Repr

/-! ## The status parser -/

/-- The `switch file[0]` of `createListItems`: the status constant of the
first byte, the variable keeping its zero value when no case applies. -/
def parseStatus (zero : status) (b : UInt8) : status :=
  if b = 65 then Added
  else if b = 68 then Deleted
  else if b = 77 then Modified
  else if b = 82 then Renamed
  else if b = 67 then Copied
  else zero

/-- The value `actualFileName` of `createListItems` for the status `st` and
the path `fileName`. -/
def actualFileName (st : status) (fileName : GoString) : GoString :=
  if (st = Renamed ∨ st = Copied) ∧ Contains fileName (bytes "\x7b") = true then
    pathClean (ReplaceAllString renameRe fileName)
  else fileName

/-- The item `createListItems` appends for an entry with the status `st`,
the path `fileName` (the entry after its first two bytes) and the flag
`conflict`. -/
def newItem (selectedFiles : List GoString) (st : status) (fileName : GoString)
    (conflict : Bool) : item :=
  { status := st, name := fileName, fileName := actualFileName st fileName,
    selected := selectedFiles.any (fun s => s = actualFileName st fileName),
    conflict := conflict }

/-- The second loop of `createListItems` on the lines left, with the flags
and the running `index`. The slice `file[2:]` of a one-byte line and the
lookup `conflicts[index]` past the flags panic; a panic leaves no result, so
the items are put together on the way back. -/
def createListItemsLoop (zero : status) (selectedFiles : List GoString)
    (conflicts : List Bool) : List GoString → Nat → Option (List item)
  | [], _ => some []
  | line :: rest, index =>
    let file := TrimSpace line
    match file with
    | [] => createListItemsLoop zero selectedFiles conflicts rest index
    | b :: _ =>
      let st := parseStatus zero b
      if file.length < 2 then none
      else
        let fileName := file.drop 2
        match conflicts.get? index with
        | none => none
        | some conflict =>
          (createListItemsLoop zero selectedFiles conflicts rest (index + 1)).map
            (fun items => newItem selectedFiles st fileName conflict :: items)

/-- The function `createListItems`: `none` when the Go code panics. -/
def createListItems (zero : status) (content : GoString) (selectedFiles : List GoString) :
    Option (List item) :=
  match scanLines content with
  | [] => some []
  | first :: rest =>
    createListItemsLoop zero selectedFiles
      ((Split first).map (fun c => decide (c = bytes "true"))) rest 0

/-! ## The selection list and the shared registry -/

/-- Modelled from the spec: `DetailsList.current` is declared outside
details.go. The cursor-addressed item: nil (`some none`) on an empty list,
else the item at the cursor; an index outside the list panics (`none`). -/
def current (s : Operation) : Option (Option item) :=
  if s.files.length = 0 then some none
  else (s.files.get? s.cursor).map some

/-- Modelled from the spec: `DetailsList.cursorUp` is declared outside
details.go. One step up, a no-op at index 0. -/
def cursorUp (s : Operation) : Operation :=
  if 0 < s.cursor then { s with cursor := s.cursor - 1 } else s

/-- Modelled from the spec: `DetailsList.cursorDown` is declared outside
details.go. One step down, a no-op at the last index. -/
def cursorDown (s : Operation) : Operation :=
  if s.cursor + 1 < s.files.length then { s with cursor := s.cursor + 1 } else s

/-- Modelled from the spec: `DetailsList.setItems` is declared outside
details.go. The new items are installed and the cursor is reset to 0. -/
def setItems (s : Operation) (items : List item) : Operation :=
  { s with files := items, cursor := 0 }

/-- Modelled from the spec: `MainContext.AddCheckedItem` is declared outside
details.go. Idempotent add by equality. -/
def AddCheckedItem (c : MainContext) (x : SelectedItem) : MainContext :=
  if x ∈ c.CheckedItems then c else { c with CheckedItems := c.CheckedItems ++ [x] }

/-- Modelled from the spec: `MainContext.RemoveCheckedItem` is declared
outside details.go. Removal by equality. -/
def RemoveCheckedItem (c : MainContext) (x : SelectedItem) : MainContext :=
  { c with CheckedItems := c.CheckedItems.filter (fun y => decide (y ≠ x)) }

/-- Whether a registry entry is a file record. -/
def SelectedItem.isFile : SelectedItem → Bool
  | SelectedItem.file _ => true
  | SelectedItem.otherType _ => false

/-- Modelled from the spec: `MainContext.ClearCheckedItems` is declared
outside details.go. With the type `SelectedFile`, all file records are
dropped in one step. -/
def ClearCheckedFiles (c : MainContext) : MainContext :=
  { c with CheckedItems := c.CheckedItems.filter (fun y => !y.isFile) }

/-- Modelled from the spec: `MainContext.SetSelectedItem` is declared outside
details.go. The item is recorded and a "selected item changed" notification
carrying it is returned; a nil item gives the nil command. -/
def SetSelectedItem (c : MainContext) (x : Option SelectedItem) : MainContext × Cmd :=
  match x with
  | none => (c, Cmd.nil)
  | some y => ({ c with SelectedItem := some y }, Cmd.selectionChanged y)

/-- The record `context.SelectedFile` of a file of the revision of `s`. -/
def selectedFileOf (s : Operation) (fileName : GoString) : SelectedItem :=
  SelectedItem.file
    { ChangeId := s.revision.GetChangeId, CommitId := s.revision.CommitId, File := fileName }

/-- The function `getSelectedFiles`: `none` when the Go code panics. -/
def getSelectedFiles (s : Operation) : Option (List GoString) :=
  if s.files.length = 0 then some []
  else
    let selectedFiles := (s.files.filter (fun f => f.selected)).map (fun f => f.fileName)
    if selectedFiles.length = 0 then
      match current s with
      | some (some cur) => some [cur.fileName]
      | _ => none
    else some selectedFiles

/-- The function `load`, given what `RunCommandImmediate` returns. -/
def load (run : JJ → CmdResult) (revision : GoString) : Cmd :=
  let r1 := run JJ.Snapshot
  match r1.err with
  | none =>
    let r2 := run (JJ.Status revision)
    match r2.err with
    | none => Cmd.updateCommitStatus r2.output
    | some e => Cmd.commandCompleted r2.output (some e)
  | some e => Cmd.commandCompleted r1.output (some e)

/-- The message a closure built by `load` yields when the runtime runs it in
the state `s`; `none` when it panics or when the command is not such a
closure. -/
def runLoadCmd (s : Operation) : Cmd → Option Msg
  | Cmd.updateCommitStatus summary =>
    (getSelectedFiles s).map (fun files => Msg.updateCommitStatusMsg summary files)
  | Cmd.commandCompleted output err => some (Msg.CommandCompletedMsg output err)
  | _ => none

/-! ## The dispatcher -/

/-- The binding `key.NewBinding(key.WithKeys(keys...), key.WithHelp(...))`. -/
def NewBinding (keys : List String) : Binding := { keys := keys, disabled := false }

/-- The option "No" of every confirmation of the view. -/
def optionNo : ConfirmOption :=
  { label := "No", cmd := Cmd.effect Effect.ConfirmationClose, keyBinding := NewBinding ["n", "esc"] }

/-- The case of the Split key (`parallel = false`, with the option
"Interactive" on the current item `selected`). -/
def splitConfirmation (s : Operation) (selectedFiles : List GoString) (selected : item) : Model :=
  confirmationNew s.keyMap.Cancel ["Are you sure you want to split the selected files?"] "revisions"
    [{ label := "Yes",
       cmd := Cmd.Batch
         (Cmd.RunInteractiveCommand (JJ.Split s.revision.GetChangeId selectedFiles false)
           [Effect.Refresh])
         (Cmd.effect Effect.Close),
       keyBinding := NewBinding ["y"] },
     { label := "Interactive",
       cmd := Cmd.Batch
         (Cmd.RunInteractiveCommand (JJ.SplitInteractive s.revision.GetChangeId selected.fileName)
           [Effect.Refresh])
         (Cmd.effect Effect.Close),
       keyBinding := NewBinding ["i"] },
     optionNo]

/-- The case of the SplitParallel key (`parallel = true`). -/
def splitParallelConfirmation (s : Operation) (selectedFiles : List GoString) : Model :=
  confirmationNew s.keyMap.Cancel
    ["Are you sure you want to split the selected files in parallel?"] "revisions"
    [{ label := "Yes",
       cmd := Cmd.Batch
         (Cmd.RunInteractiveCommand (JJ.Split s.revision.GetChangeId selectedFiles true)
           [Effect.Refresh])
         (Cmd.effect Effect.Close),
       keyBinding := NewBinding ["y"] },
     optionNo]

/-- The case of the Restore key. -/
def restoreConfirmation (s : Operation) (selectedFiles : List GoString) (selected : item) : Model :=
  confirmationNew s.keyMap.Cancel ["Are you sure you want to restore the selected files?"]
    "revisions"
    [{ label := "Yes",
       cmd := Cmd.RunCommand (JJ.Restore s.revision.GetChangeId selectedFiles)
         [Effect.Refresh, Effect.ConfirmationClose],
       keyBinding := NewBinding ["y"] },
     { label := "Interactive",
       cmd := Cmd.Batch
         (Cmd.RunInteractiveCommand
           (JJ.RestoreInteractive s.revision.GetChangeId selected.fileName) [Effect.Refresh])
         (Cmd.effect Effect.Close),
       keyBinding := NewBinding ["i"] },
     optionNo]

/-- The case of the Absorb key. -/
def absorbConfirmation (s : Operation) (selectedFiles : List GoString) : Model :=
  confirmationNew s.keyMap.Cancel
    ["Are you sure you want to absorb changes from the selected files?"] "revisions"
    [{ label := "Yes",
       cmd := Cmd.RunCommand (JJ.Absorb s.revision.GetChangeId selectedFiles)
         [Effect.Refresh, Effect.ConfirmationClose],
       keyBinding := NewBinding ["y"] },
     optionNo]

/-- The case of the ToggleSelect key on the current item `cur`: the flag of
the item at the cursor is flipped, the registry follows, the cursor moves
down. -/
def toggleSelect (s : Operation) (cur : item) : Operation :=
  let isChecked := !cur.selected
  let checkedFile := selectedFileOf s cur.fileName
  let s1 := { s with files := s.files.set s.cursor { cur with selected := isChecked } }
  let s2 := { s1 with context :=
    if isChecked then AddCheckedItem s1.context checkedFile
    else RemoveCheckedItem s1.context checkedFile }
  cursorDown s2

/-- The cases of the key switch of `internalUpdate`, in the order of the
source. -/
inductive KeyCase where
  | Up
  | Down
  | Close
  | Refresh
  | Diff
  | Split
  | SplitParallel
  | Squash
  | Restore
  | Absorb
  | ToggleSelect
  | RevisionsChangingFile
  deriving DecidableEq, Repr

/-- The case the expressionless `switch` of `internalUpdate` takes for the
key `k`: the first one whose `key.Matches` holds, none when no case does. -/
def keyCase (keyMap : KeyMappings) (k : String) : Option KeyCase :=
  if Matches k keyMap.Up then some KeyCase.Up
  else if Matches k keyMap.Down then some KeyCase.Down
  else if Matches k keyMap.Cancel || Matches k keyMap.Details.Close then some KeyCase.Close
  else if Matches k keyMap.Refresh then some KeyCase.Refresh
  else if Matches k keyMap.Details.Diff then some KeyCase.Diff
  else if Matches k keyMap.Details.Split then some KeyCase.Split
  else if Matches k keyMap.Details.SplitParallel then some KeyCase.SplitParallel
  else if Matches k keyMap.Details.Squash then some KeyCase.Squash
  else if Matches k keyMap.Details.Restore then some KeyCase.Restore
  else if Matches k keyMap.Details.Absorb then some KeyCase.Absorb
  else if Matches k keyMap.Details.ToggleSelect then some KeyCase.ToggleSelect
  else if Matches k keyMap.Details.RevisionsChangingFile then some KeyCase.RevisionsChangingFile
  else none

/-- The body of a case of the key switch of `internalUpdate`, no
confirmation being active: `none` when the Go code panics. -/
def keyCaseBody (s : Operation) : KeyCase → Option (Operation × Cmd)
  | KeyCase.Up => some (cursorUp s, Cmd.nil)
  | KeyCase.Down => some (cursorDown s, Cmd.nil)
  | KeyCase.Close => some (s, Cmd.effect Effect.Close)
  | KeyCase.Refresh => some (s, Cmd.effect Effect.Refresh)
  | KeyCase.Diff =>
    match current s with
    | none => none
    | some none => some (s, Cmd.nil)
    | some (some selected) =>
      some (s, Cmd.showDiff (JJ.Diff s.revision.GetChangeId selected.fileName))
  | KeyCase.Split =>
    match getSelectedFiles s, current s with
    | some selectedFiles, some (some selected) =>
      let s1 := { s with selectedHint := "stays as is",
                         unselectedHint := "moves to the new revision" }
      some ({ s1 with confirmation := some (splitConfirmation s selectedFiles selected) },
            Cmd.confirmationInit)
    | _, _ => none
  | KeyCase.SplitParallel =>
    match getSelectedFiles s with
    | some selectedFiles =>
      let s1 := { s with selectedHint := "stays as is",
                         unselectedHint := "moves to the new revision" }
      some ({ s1 with confirmation := some (splitParallelConfirmation s selectedFiles) },
            Cmd.confirmationInit)
    | none => none
  | KeyCase.Squash => some (s, Cmd.startSquash s.revision)
  | KeyCase.Restore =>
    match getSelectedFiles s, current s with
    | some selectedFiles, some (some selected) =>
      let s1 := { s with selectedHint := "gets restored", unselectedHint := "stays as is" }
      some ({ s1 with confirmation := some (restoreConfirmation s selectedFiles selected) },
            Cmd.confirmationInit)
    | _, _ => none
  | KeyCase.Absorb =>
    match getSelectedFiles s with
    | some selectedFiles =>
      let s1 := { s with selectedHint := "might get absorbed into parents",
                         unselectedHint := "stays as is" }
      some ({ s1 with confirmation := some (absorbConfirmation s selectedFiles) },
            Cmd.confirmationInit)
    | none => none
  | KeyCase.ToggleSelect =>
    match current s with
    | none => none
    | some none => some (s, Cmd.nil)
    | some (some cur) => some (toggleSelect s cur, Cmd.nil)
  | KeyCase.RevisionsChangingFile =>
    match current s with
    | none => none
    | some none => some (s, Cmd.nil)
    | some (some cur) =>
      some (s, Cmd.Batch (Cmd.effect Effect.Close) (Cmd.updateRevSetFiles cur.fileName))

/-- The function `internalUpdate`: the new state and the command, `none`
when the Go code panics. A key goes to the active confirmation when there is
one, else to the case of the switch it matches. -/
def internalUpdate (s : Operation) (msg : Msg) : Option (Operation × Cmd) :=
  match msg with
  | Msg.KeyMsg k =>
    match s.confirmation with
    | some c =>
      let r := confirmationUpdate c k
      some ({ s with confirmation := some r.1 }, r.2)
    | none =>
      match keyCase s.keyMap k with
      | some kc => keyCaseBody s kc
      | none => some (s, Cmd.nil)
  | _ => some (s, Cmd.nil)

/-- The loop of the `updateCommitStatusMsg` case of `Update`: every selected
item is added to the registry. -/
def addCheckedItems (s : Operation) : List item → MainContext → MainContext
  | [], c => c
  | it :: rest, c =>
    addCheckedItems s rest
      (if it.selected then AddCheckedItem c (selectedFileOf s it.fileName) else c)

/-- The function `Update`: the new state and the command, `none` when the Go
code panics. `zero` is the zero value of the type `status`, `run` is what
`RunCommandImmediate` returns. -/
def Update (zero : status) (run : JJ → CmdResult) (s : Operation) (msg : Msg) :
    Option (Operation × Cmd) :=
  match msg with
  | Msg.CloseMsg =>
    some ({ s with confirmation := none, selectedHint := "", unselectedHint := "" }, Cmd.nil)
  | Msg.RefreshMsg => some (s, load run s.revision.GetChangeId)
  | Msg.updateCommitStatusMsg summary selectedFiles =>
    match createListItems zero summary selectedFiles with
    | none => none
    | some items =>
      let c1 := ClearCheckedFiles s.context
      let r :=
        if 0 < items.length then
          SetSelectedItem (addCheckedItems s items c1)
            (items.head?.map (fun it => selectedFileOf s it.fileName))
        else (c1, Cmd.nil)
      some (setItems { s with context := r.1 } items, r.2)
  | _ =>
    let oldCursor := s.cursor
    match internalUpdate s msg with
    | none => none
    | some (s1, cmd) =>
      if s1.cursor ≠ oldCursor then
        match current s1 with
        | some (some cur) =>
          let r := SetSelectedItem s1.context (some (selectedFileOf s1 cur.fileName))
          some ({ s1 with context := r.1 }, Cmd.Batch cmd r.2)
        | _ => none
      else some (s1, cmd)

/-- A refresh, as the runtime performs it: `load`, the closure it returns run
in the state `s`, and the message of the closure handled by `Update`. -/
def refresh (zero : status) (run : JJ → CmdResult) (s : Operation) : Option (Operation × Cmd) :=
  match runLoadCmd s (load run s.revision.GetChangeId) with
  | some msg => Update zero run s msg
  | none => none

/-! ## Notions used to state the properties -/

/-- The lines that are not blank after trimming, trimmed, in order. -/
def nonBlankLines (lines : List GoString) : List GoString :=
  (lines.map TrimSpace).filter (fun l => decide (l ≠ []))

/-- The lines of a text as written, carriage returns included: the pieces
between newlines, an empty piece after the last newline being no line. -/
def rawLines (content : GoString) : List GoString :=
  if (splitByte 10 content).getLast? = some [] then (splitByte 10 content).dropLast
  else splitByte 10 content

/-- The lines of a text as written, each without its trailing carriage
return. -/
def textLines (content : GoString) : List GoString :=
  (rawLines content).map dropCR

/-- A line of 65536 letters "t": one byte more than fits the scanner's
buffer together with its newline. -/
def longLine : GoString := List.replicate maxScanTokenSize 116

/-- A text without the white space of the class `\s` at its two ends. -/
def reTrim (s : GoString) : GoString :=
  ((s.dropWhile reSpace).reverse.dropWhile reSpace).reverse

/-- The fileNames of the checked items, in list order. -/
def checkedNames (s : Operation) : List GoString :=
  (s.files.filter (fun f => f.selected)).map (fun f => f.fileName)

/-- An item with its selected flag set from a list of names. -/
def markSelected (names : List GoString) (it : item) : item :=
  { it with selected := decide (it.fileName ∈ names) }

/-- Whether `Update` handles the message in its default branch. -/
def Msg.isDefault : Msg → Bool
  | Msg.CloseMsg => false
  | Msg.RefreshMsg => false
  | Msg.updateCommitStatusMsg _ _ => false
  | _ => true

/-- The invariant of the selection list: the cursor is inside a non-empty
list, and 0 on an empty one. -/
def cursorInvariant (s : Operation) : Prop :=
  s.cursor < s.files.length ∨ (s.files = [] ∧ s.cursor = 0)

/-- The registry agrees with the list: its file records are exactly the
(revisionId, commitId, fileName) records of the items whose selected flag is
true. -/
def registryConsistent (s : Operation) : Prop :=
  ∀ x : SelectedItem, (x ∈ s.context.CheckedItems ∧ x.isFile = true) ↔
    ∃ it ∈ s.files, it.selected = true ∧ x = selectedFileOf s it.fileName

/-- The states reached by handling an `updateCommitStatusMsg` that installs
items of pairwise distinct fileNames, in any state, and then by ToggleSelect
keys, with further such loads in between. -/
inductive Reached (zero : status) (run : JJ → CmdResult) : Operation → Prop where
  | load (s s1 : Operation) (summary : GoString) (selectedFiles : List GoString) (cmd : Cmd) :
      Update zero run s (Msg.updateCommitStatusMsg summary selectedFiles) = some (s1, cmd) →
      (s1.files.map (fun it => it.fileName)).Nodup → Reached zero run s1
  | toggle (s s1 : Operation) (k : String) (cmd : Cmd) :
      Reached zero run s → keyCase s.keyMap k = some KeyCase.ToggleSelect →
      Update zero run s (Msg.KeyMsg k) = some (s1, cmd) → Reached zero run s1

/-! ### Concrete data for the examples -/

/-- A key map with one key per binding. -/
def demoKeyMap : KeyMappings :=
  { Up := NewBinding ["up"], Down := NewBinding ["down"], Cancel := NewBinding ["esc"],
    Refresh := NewBinding ["ctrl+r"],
    Details :=
      { Close := NewBinding ["h"], Diff := NewBinding ["d"], Split := NewBinding ["s"],
        SplitParallel := NewBinding ["S"], Squash := NewBinding ["q"],
        Restore := NewBinding ["r"], Absorb := NewBinding ["A"],
        ToggleSelect := NewBinding [" "], RevisionsChangingFile := NewBinding ["*"] } }

/-- A modified file without conflict. -/
def demoItem (name : String) (selected : Bool) : item :=
  { status := Modified, name := bytes name, fileName := bytes name, selected := selected,
    conflict := false }

/-- A state of the view on the revision "rev" with no confirmation. -/
def demoState (files : List item) (cursor : Nat) : Operation :=
  { files := files, cursor := cursor, selectedHint := "", unselectedHint := "",
    context := { CheckedItems := [], SelectedItem := none },
    revision := { GetChangeId := bytes "rev", CommitId := bytes "c0" },
    confirmation := none, keyMap := demoKeyMap }

/-- An environment in which the snapshot succeeds and the status call prints
the two modified files a.txt and b.txt, without conflict. -/
def demoRun : JJ → CmdResult
  | JJ.Status _ => { output := bytes "false false\nM a.txt\nM b.txt\n", err := none }
  | _ => { output := [], err := none }

/-- A state with the Split confirmation pending on two unchecked files. -/
def demoPending : Operation :=
  { demoState [demoItem "a.txt" false, demoItem "b.txt" false] 0 with
    confirmation := some
      (splitConfirmation (demoState [demoItem "a.txt" false, demoItem "b.txt" false] 0)
        [bytes "a.txt"] (demoItem "a.txt" false)) }

/-- An environment in which the snapshot call fails. -/
def demoSnapshotFails : JJ → CmdResult
  | JJ.Snapshot => { output := bytes "Error: no repository", err := some (bytes "exit status 1") }
  | _ => { output := [], err := none }

/-- An environment in which the snapshot succeeds and the status call fails. -/
def demoStatusFails : JJ → CmdResult
  | JJ.Status _ => { output := bytes "Error: no such revision", err := some (bytes "exit status 1") }
  | _ => { output := [], err := none }

/-! ## The parser: one item per non-blank line -/

theorem nonBlankLines_cons (line : GoString) (rest : List GoString) :
    nonBlankLines (line :: rest) =
      if TrimSpace line = [] then nonBlankLines rest else TrimSpace line :: nonBlankLines rest := by
  unfold nonBlankLines
  by_cases h : TrimSpace line = [] <;> simp [List.filter_cons, h]

theorem createListItemsLoop_items (zero : status) (names : List GoString) (conflicts : List Bool) :
    ∀ (lines : List GoString) (index : Nat),
      (∀ l ∈ nonBlankLines lines, 2 ≤ l.length) →
      index + (nonBlankLines lines).length ≤ conflicts.length →
      ∃ items, createListItemsLoop zero names conflicts lines index = some items ∧
        items.map (fun it => it.name) = (nonBlankLines lines).map (fun l => l.drop 2) ∧
        items.map (fun it => it.conflict)
          = (conflicts.drop index).take (nonBlankLines lines).length := by
  intro lines
  induction lines with
  | nil => intro index _ _; exact ⟨[], by simp [createListItemsLoop, nonBlankLines]⟩
  | cons line rest ih =>
    intro index hshape hflags
    rw [nonBlankLines_cons] at hshape hflags
    rw [nonBlankLines_cons]
    cases hfile : TrimSpace line with
    | nil =>
      simp only [hfile, if_true] at hshape hflags ⊢
      obtain ⟨items, h1, h2, h3⟩ := ih index hshape hflags
      exact ⟨items, by simp only [createListItemsLoop, hfile]; exact h1, h2, h3⟩
    | cons b tl =>
      simp only [hfile, if_false, reduceCtorEq] at hshape hflags ⊢
      have hlen : 2 ≤ (b :: tl).length := hshape _ (List.mem_cons_self _ _)
      have hrest : ∀ l ∈ nonBlankLines rest, 2 ≤ l.length :=
        fun l hl => hshape l (List.mem_cons_of_mem _ hl)
      simp only [List.length_cons] at hflags
      have hidx : index < conflicts.length := by omega
      obtain ⟨items, h1, h2, h3⟩ := ih (index + 1) hrest (by omega)
      have hget : conflicts.get? index = some (conflicts.get ⟨index, hidx⟩) :=
        List.get?_eq_get hidx
      have hloop : ∃ it, createListItemsLoop zero names conflicts (line :: rest) index
          = some (it :: items) ∧ it.name = (b :: tl).drop 2
            ∧ it.conflict = conflicts.get ⟨index, hidx⟩ := by
        simp only [createListItemsLoop, hfile]
        rw [if_neg (by omega)]
        simp only [hget, h1, Option.map_some']
        exact ⟨_, rfl, rfl, rfl⟩
      obtain ⟨it, hit, hname, hconf⟩ := hloop
      refine ⟨it :: items, hit, ?_, ?_⟩
      · simp [h2, hname]
      · simp only [List.map_cons, h3, List.length_cons, hconf]
        rw [List.drop_eq_getElem_cons hidx, List.take_succ_cons]
        simp

/-- The item of the trimmed, non-blank line `file` with the flag `conflict`. -/
theorem createListItemsLoop_eq_zipWith (zero : status) (names : List GoString)
    (conflicts : List Bool) :
    ∀ (lines : List GoString) (index : Nat) (items : List item),
      createListItemsLoop zero names conflicts lines index = some items →
      items = List.zipWith
        (fun file c => newItem names (parseStatus zero (file.headD 0)) (file.drop 2) c)
        (nonBlankLines lines) (conflicts.drop index) := by
  intro lines
  induction lines with
  | nil =>
    intro index items h
    simp only [createListItemsLoop, Option.some.injEq] at h
    simp [nonBlankLines, ← h]
  | cons line rest ih =>
    intro index items h
    rw [nonBlankLines_cons]
    cases hfile : TrimSpace line with
    | nil =>
      simp only [createListItemsLoop, hfile] at h
      simpa using ih index items h
    | cons b tl =>
      simp only [createListItemsLoop, hfile] at h
      split at h
      · exact absurd h (by simp)
      · cases hget : conflicts.get? index with
        | none =>
          simp only [hget] at h
          exact absurd h (by simp)
        | some c =>
          simp only [hget] at h
          cases hrec : createListItemsLoop zero names conflicts rest (index + 1) with
          | none =>
            simp only [hrec, Option.map_none'] at h
            exact absurd h (by simp)
          | some items1 =>
            simp only [hrec, Option.map_some', Option.some.injEq] at h
            have hidx : index < conflicts.length := by
              rcases Nat.lt_or_ge index conflicts.length with hlt | hge
              · exact hlt
              · rw [List.get?_eq_none.mpr hge] at hget
                exact absurd hget (by simp)
            have hc : conflicts[index] = c := by
              rw [List.get?_eq_get hidx] at hget
              simpa using hget
            rw [← h, ih (index + 1) items1 hrec, List.drop_eq_getElem_cons hidx]
            simp [hc]

theorem scanLines_eq_textLines (content : GoString)
    (hfit : ∀ l ∈ rawLines content, l.length < maxScanTokenSize) :
    scanLines content = textLines content := by
  have h : scanLines content
      = ((rawLines content).takeWhile (fun l => decide (l.length < maxScanTokenSize))).map
          dropCR := rfl
  rw [h, List.takeWhile_eq_self_iff.mpr (fun l hl => by simpa using hfit l hl)]
  rfl

theorem splitByte_append_sep (sep : UInt8) (b : GoString) :
    ∀ a : GoString, sep ∉ a → splitByte sep (a ++ sep :: b) = a :: splitByte sep b := by
  intro a
  induction a with
  | nil => intro _; simp [splitByte]
  | cons c t ih =>
    intro h
    have hc : c ≠ sep := fun e => h (by simp [e])
    have ht : sep ∉ t := fun e => h (List.mem_cons_of_mem _ e)
    rw [List.cons_append, splitByte, if_neg hc, ih ht]

theorem splitByte_of_not_mem (sep : UInt8) :
    ∀ a : GoString, sep ∉ a → splitByte sep a = [a] := by
  intro a
  induction a with
  | nil => intro _; rfl
  | cons c t ih =>
    intro h
    have hc : c ≠ sep := fun e => h (by simp [e])
    have ht : sep ∉ t := fun e => h (List.mem_cons_of_mem _ e)
    rw [splitByte, if_neg hc, ih ht]

theorem splitByte_ne_nil (sep : UInt8) : ∀ a : GoString, splitByte sep a ≠ [] := by
  intro a
  cases a with
  | nil => simp [splitByte]
  | cons c t =>
    simp only [splitByte]
    split
    · simp
    · split <;> simp

/-- A first line that does not fit the scanner's buffer: `Scan` returns false
at once and the scanner yields no token at all. -/
theorem scanLines_long_first (header tail : GoString) (h10 : (10 : UInt8) ∉ header)
    (hlen : maxScanTokenSize ≤ header.length) : scanLines (header ++ 10 :: tail) = [] := by
  have hnot : decide (header.length < maxScanTokenSize) = false := by
    simp only [decide_eq_false_iff_not, Nat.not_lt]
    exact hlen
  unfold scanLines
  simp only [splitByte_append_sep 10 tail header h10]
  split
  · rw [List.dropLast_cons_of_ne_nil (splitByte_ne_nil 10 tail), List.takeWhile_cons, hnot]
    rfl
  · rw [List.takeWhile_cons, hnot]
    rfl

theorem createListItems_long_first (zero : status) (names : List GoString)
    (header tail : GoString) (h10 : (10 : UInt8) ∉ header)
    (hlen : maxScanTokenSize ≤ header.length) :
    createListItems zero (header ++ 10 :: tail) names = some [] := by
  unfold createListItems
  rw [scanLines_long_first header tail h10 hlen]

theorem longLine_length : longLine.length = maxScanTokenSize := by
  unfold longLine
  exact List.length_replicate _ _

theorem not_mem_longLine (b : UInt8) (h : b ≠ 116) : b ∉ longLine := by
  intro hmem
  unfold longLine at hmem
  exact h (List.eq_of_mem_replicate hmem)

/-- C1 (amended): for every status text whose lines, carriage return
included, are each shorter than the 65536 bytes of the scanner's buffer, whose
first line holds at least as many space-separated flag tokens as there are
non-blank lines after it, and whose non-blank lines have, once trimmed, at
least the two bytes of the status character and the space, `createListItems`
returns exactly one item per non-blank following line, in input order (the
i-th item carries the path of the i-th non-blank line), and the i-th item's
conflict is true exactly when the i-th flag token is the text "true"; blank
lines produce no item and consume no flag. The lines are those of the text as
written (`textLines`), not the tokens of the scanner. -/
theorem createListItems_one_item_per_line (zero : status) (content : GoString)
    (names : List GoString)
    (hfit : ∀ l ∈ rawLines content, l.length < maxScanTokenSize)
    (hshape : ∀ l ∈ nonBlankLines (textLines content).tail, 2 ≤ l.length)
    (hflags : (nonBlankLines (textLines content).tail).length
      ≤ (Split ((textLines content).headD [])).length) :
    ∃ items, createListItems zero content names = some items ∧
      items.length = (nonBlankLines (textLines content).tail).length ∧
      items.map (fun it => it.name)
        = (nonBlankLines (textLines content).tail).map (fun l => l.drop 2) ∧
      items.map (fun it => it.conflict)
        = ((Split ((textLines content).headD [])).take
            (nonBlankLines (textLines content).tail).length).map
            (fun c => decide (c = bytes "true")) := by
  have hscan := scanLines_eq_textLines content hfit
  cases hlines : textLines content with
  | nil =>
    rw [hlines] at hscan
    refine ⟨[], ?_, ?_, ?_, ?_⟩
    · simp only [createListItems, hscan]
    · simp [nonBlankLines]
    · simp [nonBlankLines]
    · simp [nonBlankLines]
  | cons first rest =>
    rw [hlines] at hscan hshape hflags
    simp only [List.tail_cons, List.headD_cons] at hshape hflags ⊢
    obtain ⟨items, h1, h2, h3⟩ :=
      createListItemsLoop_items zero names
        ((Split first).map (fun c => decide (c = bytes "true")))
        rest 0 hshape (by simpa using hflags)
    refine ⟨items, ?_, ?_, h2, ?_⟩
    · simp only [createListItems, hscan]
      exact h1
    · have := congrArg List.length h2
      simpa using this
    · rw [h3, List.drop_zero, List.map_take]

/-- C1, witness: a text with two entries, an empty line and a line of
spaces between them. -/
theorem createListItems_one_item_per_line_witness :
    textLines (bytes "true false\nM a.txt\n\n  \nA b.txt\n")
      = [bytes "true false", bytes "M a.txt", [], bytes "  ", bytes "A b.txt"] ∧
    ∃ items,
      createListItems status.unnamed (bytes "true false\nM a.txt\n\n  \nA b.txt\n") []
        = some items ∧
      items.length = 2 ∧
      items.map (fun it => it.name) = [bytes "a.txt", bytes "b.txt"] ∧
      items.map (fun it => it.conflict) = [true, false] :=
  ⟨by decide,
   createListItems_one_item_per_line status.unnamed
     (bytes "true false\nM a.txt\n\n  \nA b.txt\n") [] (by decide) (by decide) (by decide)⟩

/-- C1, counterexample: the text whose first line is 65536 letters "t" (one
flag token) followed by the entry "M a.txt" has as many flags as non-blank
lines after the first, and `createListItems` returns the empty sequence, not
one item: the first line does not fit the scanner's buffer, `Scan` returns
false and the function returns before its loop. -/
theorem createListItems_long_header_counterexample :
    splitByte 10 (longLine ++ 10 :: bytes "M a.txt") = [longLine, bytes "M a.txt"] ∧
    (Split longLine).length = 1 ∧
    (nonBlankLines [bytes "M a.txt"]).length = 1 ∧
    ∀ zero names, createListItems zero (longLine ++ 10 :: bytes "M a.txt") names = some [] := by
  refine ⟨?_, ?_, by decide, ?_⟩
  · rw [splitByte_append_sep 10 _ longLine (not_mem_longLine 10 (by decide))]
    have h : splitByte 10 (bytes "M a.txt") = [bytes "M a.txt"] := by decide
    rw [h]
  · unfold Split
    rw [splitByte_of_not_mem 32 longLine (not_mem_longLine 32 (by decide))]
    rfl
  · exact fun zero names =>
      createListItems_long_first zero names longLine (bytes "M a.txt")
        (not_mem_longLine 10 (by decide)) (Nat.le_of_eq longLine_length.symm)

/-! ## The parser: canonical file names -/

theorem mem_zipWith_elim {α β γ : Type} (f : α → β → γ) :
    ∀ (l1 : List α) (l2 : List β) (x : γ), x ∈ List.zipWith f l1 l2 → ∃ a b, x = f a b := by
  intro l1
  induction l1 with
  | nil => intro l2 x h; simp at h
  | cons a t ih =>
    intro l2 x h
    cases l2 with
    | nil => simp at h
    | cons b t2 =>
      simp only [List.zipWith_cons_cons, List.mem_cons] at h
      rcases h with h | h
      · exact ⟨a, b, h⟩
      · exact ih t2 x h

theorem createListItemsLoop_item_shape (zero : status) (names : List GoString)
    (conflicts : List Bool) (lines : List GoString) (index : Nat) (items : List item)
    (h : createListItemsLoop zero names conflicts lines index = some items) :
    ∀ it ∈ items, it = newItem names it.status it.name it.conflict := by
  intro it hit
  rw [createListItemsLoop_eq_zipWith zero names conflicts lines index items h] at hit
  obtain ⟨file, c, rfl⟩ := mem_zipWith_elim _ _ _ it hit
  rfl

theorem createListItems_item_shape (zero : status) (content : GoString)
    (names : List GoString) (items : List item)
    (h : createListItems zero content names = some items) :
    ∀ it ∈ items, it = newItem names it.status it.name it.conflict := by
  unfold createListItems at h
  split at h
  · simp only [Option.some.injEq] at h
    subst h
    simp
  · exact createListItemsLoop_item_shape zero names _ _ 0 items h

theorem Contains_singleton_eq_false (b : UInt8) (p : GoString) (h : b ∉ p) :
    Contains p [b] = false := by
  induction p with
  | nil => rfl
  | cons c t ih =>
    have hc : b ≠ c := fun e => h (by simp [e])
    have ht : b ∉ t := fun e => h (List.mem_cons_of_mem _ e)
    simp [Contains, ih ht, List.isPrefixOf, hc]

theorem bytes_open_brace : bytes "\x7b" = [123] := by decide

theorem actualFileName_of_no_brace (st : status) (p : GoString) (h : (123 : UInt8) ∉ p) :
    actualFileName st p = p := by
  unfold actualFileName
  rw [bytes_open_brace, Contains_singleton_eq_false 123 p h]
  simp

/-- C2 (amended): a Renamed entry written without braces keeps its whole
path as fileName: the text "true false\nM path/to/file1.txt\nR old.txt =>
new.txt" parses to exactly the two items {Modified, "path/to/file1.txt",
conflict true} and {Renamed, "old.txt => new.txt", conflict false}, the entry
"R old dir/a.txt => new dir/a.txt" yields the fileName "old dir/a.txt => new
dir/a.txt", and so does every entry whose path has no opening brace; written
with braces, "R {old.txt => new.txt}" yields "new.txt" and
"R {old dir => new dir}/a.txt" yields "new dir/a.txt". -/
theorem createListItems_rename_notation (zero : status) :
    createListItems zero (bytes "true false\nM path/to/file1.txt\nR old.txt => new.txt") []
      = some [
          { status := Modified, name := bytes "path/to/file1.txt",
            fileName := bytes "path/to/file1.txt", selected := false, conflict := true },
          { status := Renamed, name := bytes "old.txt => new.txt",
            fileName := bytes "old.txt => new.txt", selected := false, conflict := false }] ∧
    (createListItems zero (bytes "false\nR old dir/a.txt => new dir/a.txt") []).map
        (fun items => items.map (fun it => it.fileName))
      = some [bytes "old dir/a.txt => new dir/a.txt"] ∧
    (∀ content names items, createListItems zero content names = some items →
      ∀ it ∈ items, (123 : UInt8) ∉ it.name → it.fileName = it.name) ∧
    (createListItems zero (bytes "true false\nM path/to/file1.txt\nR \x7bold.txt => new.txt\x7d") []).map
        (fun items => items.map (fun it => (it.status, it.fileName, it.conflict)))
      = some [(Modified, bytes "path/to/file1.txt", true), (Renamed, bytes "new.txt", false)] ∧
    (createListItems zero (bytes "false\nR \x7bold dir => new dir\x7d/a.txt") []).map
        (fun items => items.map (fun it => it.fileName))
      = some [bytes "new dir/a.txt"] := by
  refine ⟨rfl, rfl, ?_, rfl, rfl⟩
  intro content names items h it hit hbrace
  have hshape := createListItems_item_shape zero content names items h it hit
  rw [hshape] at hbrace ⊢
  exact actualFileName_of_no_brace _ _ hbrace

/-- C2, counterexample: on the text of the claim no parse, whatever the zero
value of the status type, gives the file names "path/to/file1.txt" and
"new.txt". -/
theorem createListItems_rename_without_braces_counterexample :
    ¬ ∃ zero items,
      createListItems zero (bytes "true false\nM path/to/file1.txt\nR old.txt => new.txt") []
        = some items ∧
      items.map (fun it => it.fileName) = [bytes "path/to/file1.txt", bytes "new.txt"] := by
  rintro ⟨zero, items, h, hnames⟩
  have hrun : createListItems zero
      (bytes "true false\nM path/to/file1.txt\nR old.txt => new.txt") []
      = some [
          { status := Modified, name := bytes "path/to/file1.txt",
            fileName := bytes "path/to/file1.txt", selected := false, conflict := true },
          { status := Renamed, name := bytes "old.txt => new.txt",
            fileName := bytes "old.txt => new.txt", selected := false, conflict := false }] := rfl
  rw [hrun] at h
  simp only [Option.some.injEq] at h
  subst h
  revert hnames
  decide

/-! ## The rename expression on a brace span -/

theorem starMatch_of_head (cls : UInt8 → Bool) (g : Bool) (k : GoString → Option Match)
    (s : GoString) (h : ∀ c, s.head? = some c → cls c = false) :
    starMatch cls g k s = k s := by
  cases s with
  | nil => rfl
  | cons c t => simp [starMatch, h c rfl]

theorem starMatch_lazy_skip (cls : UInt8 → Bool) (k : GoString → Option Match)
    (b : GoString) (m : Match) (hk : k b = some m) :
    ∀ a : GoString, (∀ c ∈ a, cls c = true) →
      (∀ a1 a2, a = a1 ++ a2 → a2 ≠ [] → k (a2 ++ b) = none) →
      starMatch cls false k (a ++ b) = some m := by
  intro a
  induction a with
  | nil =>
    intro _ _
    cases b with
    | nil => simpa [starMatch] using hk
    | cons c t =>
      by_cases hc : cls c = true
      · simp [starMatch, hc, hk]
      · simp [starMatch, hc, hk]
  | cons c a ih =>
    intro hcls hfail
    have hc : cls c = true := hcls c (List.mem_cons_self _ _)
    have hnone : k (c :: (a ++ b)) = none := hfail [] (c :: a) rfl (by simp)
    have hrec := ih (fun x hx => hcls x (List.mem_cons_of_mem _ hx))
      (fun a1 a2 e hne => hfail (c :: a1) a2 (by simp [e]) hne)
    simp [starMatch, hc, hnone, hrec]

theorem starMatch_greedy_take (cls : UInt8 → Bool) (k : GoString → Option Match)
    (b : GoString) (m : Match) (hb : starMatch cls true k b = some m) :
    ∀ a : GoString, (∀ c ∈ a, cls c = true) → starMatch cls true k (a ++ b) = some m := by
  intro a
  induction a with
  | nil => intro _; simpa using hb
  | cons c a ih =>
    intro hcls
    have hc : cls c = true := hcls c (List.mem_cons_self _ _)
    have hrec := ih (fun x hx => hcls x (List.mem_cons_of_mem _ hx))
    simp [starMatch, hc, hrec]

theorem starMatch_greedy_shape (cls : UInt8 → Bool) (k : GoString → Option Match) (d : UInt8)
    (hd : cls d = false) (hk : ∀ y m, k y = some m → ∃ r, y = d :: r) :
    ∀ (x : GoString) (m : Match), starMatch cls true k x = some m →
      ∃ w r, x = w ++ d :: r ∧ ∀ c ∈ w, cls c = true := by
  intro x
  induction x with
  | nil =>
    intro m h
    obtain ⟨r, hr⟩ := hk [] m (by simpa [starMatch] using h)
    exact absurd hr (by simp)
  | cons c t ih =>
    intro m h
    by_cases hc : cls c = true
    · simp only [starMatch, hc, if_true] at h
      cases hrec : starMatch cls true k t with
      | some m1 =>
        obtain ⟨w, r, hw, hall⟩ := ih m1 hrec
        refine ⟨c :: w, r, by simp [hw], ?_⟩
        intro x hx
        rcases List.mem_cons.mp hx with e | e
        · exact e ▸ hc
        · exact hall x e
      | none =>
        simp only [hrec] at h
        obtain ⟨r, hr⟩ := hk (c :: t) m h
        have : c = d := by simpa using congrArg List.head? hr
        rw [this, hd] at hc
        exact absurd hc (by simp)
    · simp only [starMatch, hc] at h
      obtain ⟨r, hr⟩ := hk (c :: t) m (by simpa using h)
      exact ⟨[], r, by simpa using hr, by simp⟩

theorem eq_of_append_cons_eq (d : UInt8) :
    ∀ (x w s r : GoString), d ∉ x → d ∉ w → x ++ d :: s = w ++ d :: r → x = w := by
  intro x
  induction x with
  | nil =>
    intro w s r _ hw h
    cases w with
    | nil => rfl
    | cons c w =>
      simp only [List.nil_append, List.cons_append, List.cons.injEq] at h
      exact absurd (by simp [h.1]) hw
  | cons a x ih =>
    intro w s r hx hw h
    cases w with
    | nil =>
      simp only [List.nil_append, List.cons_append, List.cons.injEq] at h
      exact absurd (by simp [h.1]) hx
    | cons c w =>
      simp only [List.cons_append, List.cons.injEq] at h
      rw [h.1, ih w s r (fun e => hx (List.mem_cons_of_mem _ e))
        (fun e => hw (List.mem_cons_of_mem _ e)) h.2]

theorem matchNodes_lit_shape (d : UInt8) (y cs ce : GoString) (m : Match)
    (h : matchNodes [Node.lit d] y cs ce = some m) : ∃ r, y = d :: r := by
  cases y with
  | nil => simp [matchNodes] at h
  | cons c t =>
    by_cases hc : c = d
    · exact ⟨t, by rw [hc]⟩
    · simp [matchNodes, hc] at h

theorem reSpace_close_brace : reSpace 125 = false := by decide

theorem not_mem_of_reSpace (w : GoString) (h : ∀ c ∈ w, reSpace c = true) :
    (125 : UInt8) ∉ w := by
  intro hmem
  have := h 125 hmem
  rw [reSpace_close_brace] at this
  exact absurd this (by simp)

theorem matchNodes_close (ws2 suf cs ce : GoString) (hws : ∀ c ∈ ws2, reSpace c = true) :
    matchNodes [Node.capClose, Node.star reSpace true, Node.lit 125] (ws2 ++ 125 :: suf) cs ce
      = some ⟨cs, ws2 ++ 125 :: suf, suf⟩ := by
  simp only [matchNodes]
  apply starMatch_greedy_take _ _ _ _ _ ws2 hws
  rw [starMatch_of_head _ _ _ _ (by simp [reSpace_close_brace])]
  simp [matchNodes]

theorem matchNodes_close_shape (x cs ce : GoString) (m : Match)
    (h : matchNodes [Node.capClose, Node.star reSpace true, Node.lit 125] x cs ce = some m) :
    ∃ w r, x = w ++ 125 :: r ∧ ∀ c ∈ w, reSpace c = true := by
  simp only [matchNodes] at h
  exact starMatch_greedy_shape reSpace _ 125 reSpace_close_brace
    (fun y m1 hy => matchNodes_lit_shape 125 y cs x m1 (by simpa [matchNodes] using hy)) x m h

theorem matchNodes_capture (core ws2 suf cs ce : GoString) (hcore : (125 : UInt8) ∉ core)
    (hws : ∀ c ∈ ws2, reSpace c = true)
    (hlast : ∀ c, core.getLast? = some c → reSpace c = false) :
    matchNodes [Node.capOpen, Node.star notCloseBrace false, Node.capClose,
        Node.star reSpace true, Node.lit 125] (core ++ (ws2 ++ 125 :: suf)) cs ce
      = some ⟨core ++ (ws2 ++ 125 :: suf), ws2 ++ 125 :: suf, suf⟩ := by
  simp only [matchNodes]
  apply starMatch_lazy_skip notCloseBrace _ (ws2 ++ 125 :: suf) _ _ core
  · intro c hc
    have : c ≠ 125 := fun e => hcore (e ▸ hc)
    simp [notCloseBrace, this]
  · intro a1 a2 hsplit hne
    cases hk : matchNodes [Node.capClose, Node.star reSpace true, Node.lit 125]
        (a2 ++ (ws2 ++ 125 :: suf)) (core ++ (ws2 ++ 125 :: suf)) ce with
    | none => simpa [matchNodes] using hk
    | some m =>
      exfalso
      obtain ⟨w, r, hw, hall⟩ := matchNodes_close_shape _ _ _ m hk
      have h2 : (125 : UInt8) ∉ a2 ++ ws2 := by
        intro hmem
        rcases List.mem_append.mp hmem with e | e
        · exact hcore (by rw [hsplit]; exact List.mem_append_right _ e)
        · exact not_mem_of_reSpace ws2 hws e
      have heq : a2 ++ ws2 = w :=
        eq_of_append_cons_eq 125 (a2 ++ ws2) w suf r h2 (not_mem_of_reSpace w hall)
          (by simpa using hw)
      obtain ⟨c, hc⟩ : ∃ c, a2.getLast? = some c :=
        ⟨a2.getLast hne, List.getLast?_eq_getLast a2 hne⟩
      have hcl : core.getLast? = some c := by
        rw [hsplit, List.getLast?_append, hc]
        rfl
      have hmem : c ∈ w := by
        rw [← heq]
        exact List.mem_append_left _ (List.mem_of_getLast?_eq_some hc)
      have := hall c hmem
      rw [hlast c hcl] at this
      exact absurd this (by simp)
  · exact matchNodes_close ws2 suf _ ce hws

theorem reTrim_split (s : GoString) :
    ∃ ws2, s.dropWhile reSpace = reTrim s ++ ws2 ∧ (∀ c ∈ ws2, reSpace c = true) ∧
      ∀ c, (reTrim s).getLast? = some c → reSpace c = false := by
  refine ⟨((s.dropWhile reSpace).reverse.takeWhile reSpace).reverse, ?_, ?_, ?_⟩
  · have h := List.takeWhile_append_dropWhile reSpace (s.dropWhile reSpace).reverse
    have h2 := congrArg List.reverse h
    rw [List.reverse_append, List.reverse_reverse] at h2
    exact h2.symm
  · intro c hc
    exact List.mem_takeWhile_imp (List.mem_reverse.mp hc)
  · intro c hc
    unfold reTrim at hc
    rw [List.getLast?_reverse] at hc
    have := List.head?_dropWhile_not reSpace (s.dropWhile reSpace).reverse
    rw [hc] at this
    simpa using this

theorem matchNodes_space_capture (new suf cs ce : GoString) (hnew : (125 : UInt8) ∉ new) :
    ∃ m, matchNodes [Node.star reSpace true, Node.capOpen, Node.star notCloseBrace false,
        Node.capClose, Node.star reSpace true, Node.lit 125] (new ++ 125 :: suf) cs ce = some m ∧
      m.group1 = reTrim new ∧ m.rest = suf := by
  obtain ⟨ws2, hsplit, hws, hlast⟩ := reTrim_split new
  have hdrop : (125 : UInt8) ∉ new.dropWhile reSpace :=
    fun e => hnew ((List.dropWhile_sublist reSpace).subset e)
  have hcore : (125 : UInt8) ∉ reTrim new := by
    intro e
    exact hdrop (by rw [hsplit]; exact List.mem_append_left _ e)
  have hcap := matchNodes_capture (reTrim new) ws2 suf cs ce hcore hws hlast
  refine ⟨⟨reTrim new ++ (ws2 ++ 125 :: suf), ws2 ++ 125 :: suf, suf⟩, ?_, ?_, rfl⟩
  · have hnew2 : new ++ 125 :: suf
        = new.takeWhile reSpace ++ (reTrim new ++ (ws2 ++ 125 :: suf)) := by
      rw [← List.append_assoc (reTrim new), ← hsplit, ← List.append_assoc,
        List.takeWhile_append_dropWhile]
    rw [hnew2]
    simp only [matchNodes]
    apply starMatch_greedy_take _ _ _ _ _ _ (fun c hc => List.mem_takeWhile_imp hc)
    rw [starMatch_of_head]
    · simpa [matchNodes] using hcap
    · intro c hc
      rw [← List.append_assoc, ← hsplit] at hc
      cases hd : new.dropWhile reSpace with
      | nil =>
        rw [hd] at hc
        simp only [List.nil_append, List.head?_cons, Option.some.injEq] at hc
        rw [← hc]
        exact reSpace_close_brace
      | cons x t =>
        have := List.head?_dropWhile_not reSpace new
        rw [hd] at hc this
        simp only [List.cons_append, List.head?_cons, Option.some.injEq] at hc
        rw [← hc]
        simpa using this
  · simp [Match.group1]

theorem matchNodes_arrow_shape (ns : List Node) (x cs ce : GoString) (m : Match)
    (h : matchNodes (Node.lit 32 :: Node.lit 61 :: Node.lit 62 :: Node.lit 32 :: ns) x cs ce
      = some m) :
    ([32, 61, 62, 32] : GoString) <+: x := by
  match x with
  | [] => simp [matchNodes] at h
  | [a] =>
    by_cases ha : a = 32 <;> simp [matchNodes, ha] at h
  | [a, b] =>
    by_cases ha : a = 32 <;> by_cases hb : b = 61 <;> simp [matchNodes, ha, hb] at h
  | [a, b, c] =>
    by_cases ha : a = 32 <;> by_cases hb : b = 61 <;> by_cases hc : c = 62 <;>
      simp [matchNodes, ha, hb, hc] at h
  | a :: b :: c :: d :: t =>
    by_cases ha : a = 32
    · by_cases hb : b = 61
      · by_cases hc : c = 62
        · by_cases hd : d = 32
          · exact ⟨t, by simp [ha, hb, hc, hd]⟩
          · simp [matchNodes, ha, hb, hc, hd] at h
        · simp [matchNodes, ha, hb, hc] at h
      · simp [matchNodes, ha, hb] at h
    · simp [matchNodes, ha] at h

/-- The rename expression at an opening brace: the first arrow ends the old
name, group 1 is the new name without its white space. -/
theorem matchNodes_renameRe (old new suf : GoString)
    (hold : (125 : UInt8) ∉ old) (hnew : (125 : UInt8) ∉ new)
    (harrow : ¬ ([32, 61, 62, 32] : GoString) <:+: old ++ [32, 61, 62]) :
    ∃ m, matchNodes renameRe (123 :: (old ++ ([32, 61, 62, 32] ++ (new ++ 125 :: suf)))) [] []
        = some m ∧ m.group1 = reTrim new ∧ m.rest = suf := by
  obtain ⟨m, hm, hg, hr⟩ := matchNodes_space_capture new suf [] [] hnew
  refine ⟨m, ?_, hg, hr⟩
  simp only [renameRe, matchNodes, if_true]
  apply starMatch_lazy_skip notCloseBrace _ _ _ _ old
  · intro c hc
    have : c ≠ 125 := fun e => hold (e ▸ hc)
    simp [notCloseBrace, this]
  · intro a1 a2 hsplit hne
    cases hk : matchNodes (Node.lit 32 :: Node.lit 61 :: Node.lit 62 :: Node.lit 32 ::
        [Node.star reSpace true, Node.capOpen, Node.star notCloseBrace false, Node.capClose,
          Node.star reSpace true, Node.lit 125])
        (a2 ++ ([32, 61, 62, 32] ++ (new ++ 125 :: suf))) [] [] with
    | none => simpa [matchNodes] using hk
    | some m1 =>
      exfalso
      have hpre := matchNodes_arrow_shape _ _ _ _ m1 hk
      have hpre2 : (a2 ++ [32, 61, 62] : GoString) <+: a2 ++ ([32, 61, 62, 32] ++ (new ++ 125 :: suf)) :=
        ⟨32 :: (new ++ 125 :: suf), by simp⟩
      have hlen : ([32, 61, 62, 32] : GoString).length ≤ (a2 ++ [32, 61, 62] : GoString).length := by
        cases a2 with
        | nil => exact absurd rfl hne
        | cons x t => simp
      have hin := (List.prefix_of_prefix_length_le hpre hpre2 hlen).isInfix
      apply harrow
      rw [hsplit, List.append_assoc]
      exact hin.trans (List.suffix_append a1 _).isInfix
  · simpa [matchNodes] using hm

theorem matchNodes_renameRe_none (c : UInt8) (t : GoString) (h : c ≠ 123) :
    matchNodes renameRe (c :: t) [] [] = none := by
  simp [renameRe, matchNodes, h]

theorem replaceAllLoop_no_brace :
    ∀ (fuel : Nat) (s : GoString), (123 : UInt8) ∉ s → replaceAllLoop renameRe fuel s = s := by
  intro fuel
  induction fuel with
  | zero => intro s _; rfl
  | succ n ih =>
    intro s hs
    cases s with
    | nil => rfl
    | cons c t =>
      have hc : c ≠ 123 := fun e => hs (by simp [e])
      simp only [replaceAllLoop, matchNodes_renameRe_none c t hc]
      rw [ih t (fun e => hs (List.mem_cons_of_mem _ e))]

theorem replaceAllLoop_prefix (fuel : Nat) (s : GoString) :
    ∀ pre : GoString, (123 : UInt8) ∉ pre →
      replaceAllLoop renameRe (pre.length + fuel) (pre ++ s)
        = pre ++ replaceAllLoop renameRe fuel s := by
  intro pre
  induction pre with
  | nil => intro _; simp
  | cons c t ih =>
    intro hpre
    have hc : c ≠ 123 := fun e => hpre (by simp [e])
    have hlen : (c :: t).length + fuel = (t.length + fuel) + 1 := by simp; omega
    rw [hlen]
    show replaceAllLoop renameRe (t.length + fuel + 1) (c :: (t ++ s)) = _
    simp only [replaceAllLoop, matchNodes_renameRe_none c _ hc]
    rw [ih (fun e => hpre (List.mem_cons_of_mem _ e))]
    rfl

/-- The replacement on a path with one brace span. -/
theorem ReplaceAllString_span (pre old new suf : GoString)
    (hpre : (123 : UInt8) ∉ pre) (hold : (125 : UInt8) ∉ old) (hnew : (125 : UInt8) ∉ new)
    (hsuf : (123 : UInt8) ∉ suf)
    (harrow : ¬ ([32, 61, 62, 32] : GoString) <:+: old ++ [32, 61, 62]) :
    ReplaceAllString renameRe (pre ++ (123 :: (old ++ ([32, 61, 62, 32] ++ (new ++ 125 :: suf)))))
      = pre ++ (reTrim new ++ suf) := by
  obtain ⟨m, hm, hg, hr⟩ := matchNodes_renameRe old new suf hold hnew harrow
  unfold ReplaceAllString
  rw [List.length_append, replaceAllLoop_prefix _ _ pre hpre]
  simp only [List.length_cons, replaceAllLoop, hm, hg, hr]
  rw [replaceAllLoop_no_brace _ suf hsuf]

/-! ## The bytes of a cleaned path -/

theorem cleanLoop_mem (P : UInt8 → Prop) (h46 : P 46) (h47 : P 47) (rooted : Bool) :
    ∀ (fuel : Nat) (rest out : GoString) (dotdot : Nat),
      (∀ c ∈ rest, P c) → (∀ c ∈ out, P c) →
      ∀ c ∈ cleanLoop rooted fuel rest out dotdot, P c := by
  intro fuel
  induction fuel with
  | zero => intro rest out dotdot _ hout c hc; exact hout c (by simpa [cleanLoop] using hc)
  | succ n ih =>
    intro rest out dotdot hrest hout
    cases rest with
    | nil => intro c hc; exact hout c (by simpa [cleanLoop] using hc)
    | cons a t =>
      have ht : ∀ c ∈ t, P c := fun c hc => hrest c (List.mem_cons_of_mem _ hc)
      have htt : ∀ c ∈ t.tail, P c := fun c hc => ht c (List.mem_of_mem_tail hc)
      simp only [cleanLoop]
      split
      · exact ih t out dotdot ht hout
      · split
        · exact ih t out dotdot ht hout
        · split
          · split
            · exact ih _ _ dotdot htt (fun c hc => hout c (List.mem_of_mem_take hc))
            · split
              · apply ih _ _ _ htt
                intro c hc
                rcases List.mem_append.mp hc with e | e
                · split at e
                  · rcases List.mem_append.mp e with e1 | e1
                    · exact hout c e1
                    · simp only [List.mem_singleton] at e1
                      exact e1 ▸ h47
                  · exact hout c e
                · simp only [List.mem_cons, List.mem_singleton, List.not_mem_nil, or_false,
                    or_self] at e
                  exact e ▸ h46
              · exact ih _ _ dotdot htt hout
          · apply ih _ _ dotdot
            · intro c hc
              exact hrest c ((List.dropWhile_sublist _).subset hc)
            · intro c hc
              rcases List.mem_append.mp hc with e | e
              · split at e
                · rcases List.mem_append.mp e with e1 | e1
                  · exact hout c e1
                  · simp only [List.mem_singleton] at e1
                    exact e1 ▸ h47
                · exact hout c e
              · exact hrest c ((List.takeWhile_sublist _).subset e)

/-- Every byte of a cleaned path is a byte of the path, a dot or a slash. -/
theorem pathClean_mem (p : GoString) : ∀ c ∈ pathClean p, c ∈ p ∨ c = 46 ∨ c = 47 := by
  intro c hc
  cases p with
  | nil =>
    simp only [pathClean, List.mem_singleton] at hc
    exact Or.inr (Or.inl hc)
  | cons a t =>
    have hloop : ∀ (rooted : Bool) (fuel : Nat) (rest out : GoString) (dotdot : Nat),
        (∀ x ∈ rest, x ∈ a :: t) → (∀ x ∈ out, x = 47) →
        ∀ x ∈ cleanLoop rooted fuel rest out dotdot, x ∈ a :: t ∨ x = 46 ∨ x = 47 :=
      fun rooted fuel rest out dotdot hrest hout =>
        cleanLoop_mem (fun x => x ∈ a :: t ∨ x = 46 ∨ x = 47) (by simp) (by simp) rooted fuel rest
          out dotdot (fun x hx => Or.inl (hrest x hx)) (fun x hx => Or.inr (Or.inr (hout x hx)))
    by_cases ha : a = 47
    · simp only [pathClean, ha, decide_True, if_true] at hc
      by_cases hl : (cleanLoop true (47 :: t).length t [47] 1).length = 0
      · rw [if_pos hl, List.mem_singleton] at hc
        exact Or.inr (Or.inl hc)
      · rw [if_neg hl] at hc
        exact hloop true _ t [47] 1 (fun x hx => List.mem_cons_of_mem _ hx) (by simp) c hc
    · simp only [pathClean, ha, decide_False, Bool.false_eq_true, if_false] at hc
      by_cases hl : (cleanLoop false (a :: t).length (a :: t) [] 0).length = 0
      · rw [if_pos hl, List.mem_singleton] at hc
        exact Or.inr (Or.inl hc)
      · rw [if_neg hl] at hc
        exact hloop false _ (a :: t) [] 0 (fun x hx => hx) (by simp) c hc

theorem Contains_singleton_of_mem (b : UInt8) (p : GoString) (h : b ∈ p) :
    Contains p [b] = true := by
  induction p with
  | nil => simp at h
  | cons c t ih =>
    rcases List.mem_cons.mp h with e | e
    · simp [Contains, List.isPrefixOf, e]
    · simp [Contains, ih e]

theorem reTrim_subset (s : GoString) : ∀ c ∈ reTrim s, c ∈ s := by
  intro c hc
  obtain ⟨ws2, hsplit, -, -⟩ := reTrim_split s
  apply (List.dropWhile_sublist reSpace).subset
  rw [hsplit]
  exact List.mem_append_left _ hc

theorem bytes_close_brace : bytes "\x7d" = [125] := by decide

theorem bytes_arrow : bytes " => " = [32, 61, 62, 32] := by decide

theorem bytes_arrow_head : bytes " =>" = [32, 61, 62] := by decide

/-- C3 (amended): for every Renamed or Copied entry whose path has the form
prefix{old => new}suffix, with no brace character inside prefix, old, new or
suffix, and with no " => " beginning inside old (the first arrow after the
opening brace is the one before new), `createListItems` sets fileName to the
path-cleaned form of prefix followed by new without its surrounding white
space (tab, newline, form feed, carriage return, space) followed by suffix,
and that fileName contains neither an opening nor a closing brace. -/
theorem createListItems_brace_span (zero : status) (content : GoString)
    (names : List GoString) (items : List item) (it : item) (pre old new suf : GoString)
    (h : createListItems zero content names = some items) (hit : it ∈ items)
    (hst : it.status = Renamed ∨ it.status = Copied)
    (hname : it.name = pre ++ bytes "\x7b" ++ old ++ bytes " => " ++ new ++ bytes "\x7d" ++ suf)
    (hpre : (123 : UInt8) ∉ pre ∧ (125 : UInt8) ∉ pre)
    (hold : (123 : UInt8) ∉ old ∧ (125 : UInt8) ∉ old)
    (hnew : (123 : UInt8) ∉ new ∧ (125 : UInt8) ∉ new)
    (hsuf : (123 : UInt8) ∉ suf ∧ (125 : UInt8) ∉ suf)
    (harrow : ¬ bytes " => " <:+: old ++ bytes " =>") :
    it.fileName = pathClean (pre ++ reTrim new ++ suf) ∧
      (123 : UInt8) ∉ it.fileName ∧ (125 : UInt8) ∉ it.fileName := by
  rw [bytes_arrow, bytes_arrow_head] at harrow
  rw [bytes_open_brace, bytes_arrow, bytes_close_brace] at hname
  have hname2 : it.name
      = pre ++ (123 :: (old ++ ([32, 61, 62, 32] ++ (new ++ 125 :: suf)))) := by
    rw [hname]
    simp
  have hshape := createListItems_item_shape zero content names items h it hit
  have hfile : it.fileName = pathClean (pre ++ reTrim new ++ suf) := by
    have hf : it.fileName = actualFileName it.status it.name := by
      conv_lhs => rw [hshape]
      rfl
    have hcontains : Contains it.name (bytes "\x7b") = true := by
      rw [bytes_open_brace]
      apply Contains_singleton_of_mem
      rw [hname2]
      simp
    rw [hf]
    unfold actualFileName
    rw [if_pos ⟨hst, hcontains⟩, hname2,
      ReplaceAllString_span pre old new suf hpre.1 hold.2 hnew.2 hsuf.1 harrow,
      List.append_assoc]
  have hmem : ∀ c ∈ it.fileName, c ∈ pre ∨ c ∈ new ∨ c ∈ suf ∨ c = 46 ∨ c = 47 := by
    intro c hc
    rw [hfile] at hc
    rcases pathClean_mem _ c hc with e | e
    · rcases List.mem_append.mp e with e1 | e1
      · rcases List.mem_append.mp e1 with e2 | e2
        · exact Or.inl e2
        · exact Or.inr (Or.inl (reTrim_subset new c e2))
      · exact Or.inr (Or.inr (Or.inl e1))
    · exact Or.inr (Or.inr (Or.inr e))
  refine ⟨hfile, ?_, ?_⟩
  · intro hc
    rcases hmem 123 hc with e | e | e | e | e
    · exact hpre.1 e
    · exact hnew.1 e
    · exact hsuf.1 e
    · exact absurd e (by decide)
    · exact absurd e (by decide)
  · intro hc
    rcases hmem 125 hc with e | e | e | e | e
    · exact hpre.2 e
    · exact hnew.2 e
    · exact hsuf.2 e
    · exact absurd e (by decide)
    · exact absurd e (by decide)

/-- C3, witness: the entry "R src/./{old.go =>  new.go }/../main.go". -/
theorem createListItems_brace_span_witness :
    (⟨Renamed, bytes "src/./\x7bold.go =>  new.go \x7d/../main.go", bytes "src/main.go", false,
        false⟩ : item).fileName
      = pathClean (bytes "src/./" ++ reTrim (bytes " new.go ") ++ bytes "/../main.go") ∧
    (123 : UInt8) ∉ (⟨Renamed, bytes "src/./\x7bold.go =>  new.go \x7d/../main.go",
        bytes "src/main.go", false, false⟩ : item).fileName ∧
    (125 : UInt8) ∉ (⟨Renamed, bytes "src/./\x7bold.go =>  new.go \x7d/../main.go",
        bytes "src/main.go", false, false⟩ : item).fileName :=
  createListItems_brace_span status.unnamed
    (bytes "false\nR src/./\x7bold.go =>  new.go \x7d/../main.go") []
    [⟨Renamed, bytes "src/./\x7bold.go =>  new.go \x7d/../main.go", bytes "src/main.go", false, false⟩]
    ⟨Renamed, bytes "src/./\x7bold.go =>  new.go \x7d/../main.go", bytes "src/main.go", false, false⟩
    (bytes "src/./") (bytes "old.go") (bytes " new.go ") (bytes "/../main.go")
    (by decide) (by decide) (by decide) (by decide) (by decide) (by decide) (by decide)
    (by decide) (by decide)

/-- C3, counterexample: the path "{a => b => c}" has the form {old => new}
with old "a => b" and new "c", no brace inside either, and its fileName is
"b => c", not the cleaned "c". -/
theorem createListItems_arrow_in_old_counterexample :
    ∃ items it, (∀ zero, createListItems zero (bytes "false\nR \x7ba => b => c\x7d") [] = some items) ∧
      it ∈ items ∧ it.status = Renamed ∧
      it.name = [] ++ bytes "\x7b" ++ bytes "a => b" ++ bytes " => " ++ bytes "c" ++ bytes "\x7d" ++ [] ∧
      ((123 : UInt8) ∉ bytes "a => b" ∧ (125 : UInt8) ∉ bytes "a => b") ∧
      ((123 : UInt8) ∉ bytes "c" ∧ (125 : UInt8) ∉ bytes "c") ∧
      it.fileName = bytes "b => c" ∧
      it.fileName ≠ pathClean ([] ++ reTrim (bytes "c") ++ []) :=
  ⟨[⟨Renamed, bytes "\x7ba => b => c\x7d", bytes "b => c", false, false⟩],
    ⟨Renamed, bytes "\x7ba => b => c\x7d", bytes "b => c", false, false⟩,
    fun _ => rfl, by decide, rfl, by decide, by decide, by decide, rfl, by decide⟩

/-! ## The effective selection -/

theorem current_of_cursor (s : Operation) (cur : item) (h : s.files.get? s.cursor = some cur) :
    current s = some (some cur) := by
  have hlen : s.files.length ≠ 0 := by
    intro h0
    rw [List.length_eq_zero.mp h0] at h
    simp at h
  simp only [current, hlen, if_false, h, Option.map_some']

theorem getSelectedFiles_of_cursor (s : Operation) (hcur : s.cursor < s.files.length) :
    ∃ names cur, getSelectedFiles s = some names ∧ names ≠ [] ∧
      s.files.get? s.cursor = some cur ∧
      ((∃ f ∈ s.files, f.selected = true) → names = checkedNames s) ∧
      ((∀ f ∈ s.files, f.selected = false) → names = [cur.fileName]) := by
  have hget : s.files.get? s.cursor = some (s.files.get ⟨s.cursor, hcur⟩) :=
    List.get?_eq_get hcur
  have hlen : s.files.length ≠ 0 := by omega
  by_cases hsel : checkedNames s = []
  · refine ⟨[(s.files.get ⟨s.cursor, hcur⟩).fileName], _, ?_, by simp, hget, ?_, fun _ => rfl⟩
    · unfold checkedNames at hsel
      simp only [getSelectedFiles, hlen, if_false, hsel, List.length_nil, if_true,
        current_of_cursor s _ hget]
    · rintro ⟨f, hf, hfs⟩
      exfalso
      have : f.fileName ∈ checkedNames s :=
        List.mem_map.mpr ⟨f, List.mem_filter.mpr ⟨hf, by simpa using hfs⟩, rfl⟩
      rw [hsel] at this
      simp at this
  · refine ⟨checkedNames s, _, ?_, hsel, hget, fun _ => rfl, ?_⟩
    · have hl : (checkedNames s).length ≠ 0 := fun e => hsel (List.length_eq_zero.mp e)
      unfold checkedNames at hl
      simp only [getSelectedFiles, hlen, if_false, hl]
      rfl
    · intro hall
      exfalso
      apply hsel
      unfold checkedNames
      rw [List.map_eq_nil_iff, List.filter_eq_nil_iff]
      intro f hf
      simp [hall f hf]

/-- C4: for every non-empty file list with a cursor inside it,
`getSelectedFiles` returns a non-empty sequence: the fileNames of all checked
items in list order when at least one item is checked, and otherwise the
one-element sequence holding the cursor item's fileName; whatever the state,
it returns the empty sequence only when the list itself is empty. -/
theorem getSelectedFiles_effective (s : Operation) (hcur : s.cursor < s.files.length) :
    (∃ names cur, getSelectedFiles s = some names ∧ names ≠ [] ∧
      s.files.get? s.cursor = some cur ∧
      ((∃ f ∈ s.files, f.selected = true) → names = checkedNames s) ∧
      ((∀ f ∈ s.files, f.selected = false) → names = [cur.fileName])) ∧
    (∀ t : Operation, getSelectedFiles t = some [] → t.files = []) := by
  refine ⟨getSelectedFiles_of_cursor s hcur, ?_⟩
  intro t ht
  by_contra hne
  have hlen : t.files.length ≠ 0 := fun e => hne (List.length_eq_zero.mp e)
  by_cases hl : (checkedNames t).length = 0
  · have hl2 := hl
    unfold checkedNames at hl2
    simp only [getSelectedFiles, hlen, if_false, hl2, if_true] at ht
    rcases hc : current t with _ | _ | cur <;> simp [hc] at ht
  · have hl2 := hl
    unfold checkedNames at hl2
    simp only [getSelectedFiles, hlen, if_false, hl2, Option.some.injEq] at ht
    apply hl
    unfold checkedNames
    rw [ht]
    rfl

/-- C4, witness: three files, the first and the last checked, the cursor on
the second. -/
theorem getSelectedFiles_effective_witness :
    (∃ names cur,
      getSelectedFiles (demoState [demoItem "a.txt" true, demoItem "m.txt" false,
        demoItem "b.txt" true] 1) = some names ∧ names ≠ [] ∧
      (demoState [demoItem "a.txt" true, demoItem "m.txt" false,
        demoItem "b.txt" true] 1).files.get? 1 = some cur ∧
      ((∃ f ∈ (demoState [demoItem "a.txt" true, demoItem "m.txt" false,
          demoItem "b.txt" true] 1).files, f.selected = true) →
        names = checkedNames (demoState [demoItem "a.txt" true, demoItem "m.txt" false,
          demoItem "b.txt" true] 1)) ∧
      ((∀ f ∈ (demoState [demoItem "a.txt" true, demoItem "m.txt" false,
          demoItem "b.txt" true] 1).files, f.selected = false) → names = [cur.fileName])) ∧
    (∀ t : Operation, getSelectedFiles t = some [] → t.files = []) :=
  getSelectedFiles_effective
    (demoState [demoItem "a.txt" true, demoItem "m.txt" false, demoItem "b.txt" true] 1)
    (by decide)

/-! ## Selection across a reload -/

/-- C5, the code at the failing input: two files, none checked, the cursor
on b.txt; after a refresh that lists the same two files, b.txt is checked and
its record is in the registry. -/
theorem refresh_checks_cursor_item :
    (∀ f ∈ (demoState [demoItem "a.txt" false, demoItem "b.txt" false] 1).files,
      f.selected = false) ∧
    ∃ s1 cmd,
      refresh status.unnamed demoRun (demoState [demoItem "a.txt" false, demoItem "b.txt" false] 1)
        = some (s1, cmd) ∧
      s1.files = [demoItem "a.txt" false, demoItem "b.txt" true] ∧
      s1.context.CheckedItems
        = [SelectedItem.file { ChangeId := bytes "rev", CommitId := bytes "c0",
                               File := bytes "b.txt" }] :=
  ⟨by decide, _, _, rfl, by decide, by decide⟩

theorem any_eq_decide_mem (names : List GoString) (x : GoString) :
    names.any (fun s => decide (s = x)) = decide (x ∈ names) := by
  induction names with
  | nil => simp
  | cons a t ih =>
    rw [List.any_cons, ih]
    by_cases h : a = x
    · simp [h]
    · have h2 : ¬ x = a := fun e => h e.symm
      simp [h, h2]

theorem newItem_markSelected (names : List GoString) (st : status) (fileName : GoString)
    (c : Bool) : newItem names st fileName c = markSelected names (newItem [] st fileName c) := by
  simp only [newItem, markSelected, any_eq_decide_mem]

theorem createListItemsLoop_names (zero : status) (names : List GoString)
    (conflicts : List Bool) :
    ∀ (lines : List GoString) (index : Nat),
      createListItemsLoop zero names conflicts lines index
        = (createListItemsLoop zero [] conflicts lines index).map
            (fun items => items.map (markSelected names)) := by
  intro lines
  induction lines with
  | nil => intro index; rfl
  | cons line rest ih =>
    intro index
    cases hfile : TrimSpace line with
    | nil =>
      simp only [createListItemsLoop, hfile]
      exact ih index
    | cons b tl =>
      simp only [createListItemsLoop, hfile]
      split
      · rfl
      · cases hget : conflicts.get? index with
        | none => rfl
        | some c =>
          simp only []
          rw [ih (index + 1)]
          cases createListItemsLoop zero [] conflicts rest (index + 1) with
          | none => rfl
          | some items =>
            simp only [Option.map_some', List.map_cons, Option.some.injEq, List.cons.injEq,
              and_true]
            exact newItem_markSelected names _ _ c

/-- C6: for every status text and every list of names, `createListItems`
marks an item selected if and only if its canonical fileName occurs in the
given names; the parse is otherwise the one obtained with no name at all, so
that the flag of an item depends on its fileName alone, not on its position,
on its display name or on the other entries of the text. -/
theorem createListItems_selected_iff (zero : status) (content : GoString)
    (names : List GoString) :
    (∀ items, createListItems zero content names = some items →
      ∀ it ∈ items, (it.selected = true ↔ it.fileName ∈ names)) ∧
    createListItems zero content names
      = (createListItems zero content []).map (fun items => items.map (markSelected names)) := by
  constructor
  · intro items h it hit
    have hshape := createListItems_item_shape zero content names items h it hit
    have hsel : it.selected = decide (it.fileName ∈ names) := by
      conv_lhs => rw [hshape]
      rw [newItem_markSelected]
      simp only [markSelected, newItem]
      conv_rhs => rw [hshape]
      simp only [newItem]
    rw [hsel]
    simp
  · unfold createListItems
    split
    · rfl
    · exact createListItemsLoop_names zero names _ _ 0

/-! ## The confirmations of the dispatcher -/

theorem internalUpdate_of_keyCase (s : Operation) (k : String) (kc : KeyCase)
    (hconf : s.confirmation = none) (hkey : keyCase s.keyMap k = some kc) :
    internalUpdate s (Msg.KeyMsg k) = keyCaseBody s kc := by
  simp only [internalUpdate, hconf, hkey]

/-- C7: for every non-empty file list (the cursor inside it, no confirmation
active), the option "Yes" built by the Split key carries the command
Split(revision, getSelectedFiles(), parallel=false) with a refresh as its
continuation, and the option "Yes" built by the SplitParallel key carries the
same command with parallel=true; the file argument is the list of the checked
fileNames when an item is checked. -/
theorem split_yes_option (s : Operation) (k : String) (hconf : s.confirmation = none)
    (hcur : s.cursor < s.files.length) :
    ∃ files, getSelectedFiles s = some files ∧
      ((∃ f ∈ s.files, f.selected = true) → files = checkedNames s) ∧
      (keyCase s.keyMap k = some KeyCase.Split →
        ∃ s1 c, internalUpdate s (Msg.KeyMsg k) = some (s1, Cmd.confirmationInit) ∧
          s1.confirmation = some c ∧
          c.options.filter (fun o => o.label = "Yes")
            = [{ label := "Yes",
                 cmd := Cmd.Batch
                   (Cmd.RunInteractiveCommand (JJ.Split s.revision.GetChangeId files false)
                     [Effect.Refresh])
                   (Cmd.effect Effect.Close),
                 keyBinding := NewBinding ["y"] }]) ∧
      (keyCase s.keyMap k = some KeyCase.SplitParallel →
        ∃ s1 c, internalUpdate s (Msg.KeyMsg k) = some (s1, Cmd.confirmationInit) ∧
          s1.confirmation = some c ∧
          c.options.filter (fun o => o.label = "Yes")
            = [{ label := "Yes",
                 cmd := Cmd.Batch
                   (Cmd.RunInteractiveCommand (JJ.Split s.revision.GetChangeId files true)
                     [Effect.Refresh])
                   (Cmd.effect Effect.Close),
                 keyBinding := NewBinding ["y"] }]) := by
  obtain ⟨files, cur, hfiles, -, hget, hchecked, -⟩ := getSelectedFiles_of_cursor s hcur
  refine ⟨files, hfiles, hchecked, ?_, ?_⟩
  · intro hkey
    rw [internalUpdate_of_keyCase s k _ hconf hkey]
    simp only [keyCaseBody, hfiles, current_of_cursor s cur hget]
    exact ⟨_, _, rfl, rfl, rfl⟩
  · intro hkey
    rw [internalUpdate_of_keyCase s k _ hconf hkey]
    simp only [keyCaseBody, hfiles]
    exact ⟨_, _, rfl, rfl, rfl⟩

/-- C7, witness: a.txt and b.txt checked, the cursor on the unchecked c.txt;
the Split key "s" and the SplitParallel key "S" build a "Yes" option whose
file argument is exactly a.txt, b.txt. -/
theorem split_yes_option_witness :
    (∃ s1 c,
      internalUpdate
          (demoState [demoItem "a.txt" true, demoItem "b.txt" true, demoItem "c.txt" false] 2)
          (Msg.KeyMsg "s") = some (s1, Cmd.confirmationInit) ∧
        s1.confirmation = some c ∧
        c.options.filter (fun o => o.label = "Yes")
          = [{ label := "Yes",
               cmd := Cmd.Batch
                 (Cmd.RunInteractiveCommand
                   (JJ.Split (bytes "rev") [bytes "a.txt", bytes "b.txt"] false) [Effect.Refresh])
                 (Cmd.effect Effect.Close),
               keyBinding := NewBinding ["y"] }]) ∧
    (∃ s1 c,
      internalUpdate
          (demoState [demoItem "a.txt" true, demoItem "b.txt" true, demoItem "c.txt" false] 2)
          (Msg.KeyMsg "S") = some (s1, Cmd.confirmationInit) ∧
        s1.confirmation = some c ∧
        c.options.filter (fun o => o.label = "Yes")
          = [{ label := "Yes",
               cmd := Cmd.Batch
                 (Cmd.RunInteractiveCommand
                   (JJ.Split (bytes "rev") [bytes "a.txt", bytes "b.txt"] true) [Effect.Refresh])
                 (Cmd.effect Effect.Close),
               keyBinding := NewBinding ["y"] }]) := by
  constructor
  · obtain ⟨files, -, hchecked, hsplit, -⟩ :=
      split_yes_option
        (demoState [demoItem "a.txt" true, demoItem "b.txt" true, demoItem "c.txt" false] 2)
        "s" rfl (by decide)
    have hf : files = [bytes "a.txt", bytes "b.txt"] :=
      hchecked ⟨demoItem "a.txt" true, by decide, rfl⟩
    subst hf
    exact hsplit (by decide)
  · obtain ⟨files, -, hchecked, -, hpar⟩ :=
      split_yes_option
        (demoState [demoItem "a.txt" true, demoItem "b.txt" true, demoItem "c.txt" false] 2)
        "S" rfl (by decide)
    have hf : files = [bytes "a.txt", bytes "b.txt"] :=
      hchecked ⟨demoItem "a.txt" true, by decide, rfl⟩
    subst hf
    exact hpar (by decide)

/-! ## Closing a confirmation -/

theorem keyCaseBody_confirmation (s s1 : Operation) (kc : KeyCase) (cmd : Cmd) (c : Model)
    (hconf : s.confirmation = none) (hbody : keyCaseBody s kc = some (s1, cmd))
    (hc : s1.confirmation = some c) :
    ∃ files, (∃ selected, c = splitConfirmation s files selected) ∨
      c = splitParallelConfirmation s files ∨
      (∃ selected, c = restoreConfirmation s files selected) ∨
      c = absorbConfirmation s files := by
  have hup : (cursorUp s).confirmation = none := by
    unfold cursorUp
    split <;> simp [hconf]
  have hdown : ∀ t : Operation, t.confirmation = none → (cursorDown t).confirmation = none := by
    intro t ht
    unfold cursorDown
    split <;> simp [ht]
  cases kc with
  | Up =>
    simp only [keyCaseBody, Option.some.injEq, Prod.mk.injEq] at hbody
    rw [← hbody.1, hup] at hc
    exact absurd hc (by simp)
  | Down =>
    simp only [keyCaseBody, Option.some.injEq, Prod.mk.injEq] at hbody
    rw [← hbody.1, hdown s hconf] at hc
    exact absurd hc (by simp)
  | Close =>
    simp only [keyCaseBody, Option.some.injEq, Prod.mk.injEq] at hbody
    rw [← hbody.1, hconf] at hc
    exact absurd hc (by simp)
  | Refresh =>
    simp only [keyCaseBody, Option.some.injEq, Prod.mk.injEq] at hbody
    rw [← hbody.1, hconf] at hc
    exact absurd hc (by simp)
  | Squash =>
    simp only [keyCaseBody, Option.some.injEq, Prod.mk.injEq] at hbody
    rw [← hbody.1, hconf] at hc
    exact absurd hc (by simp)
  | Diff =>
    simp only [keyCaseBody] at hbody
    rcases hcur : current s with _ | _ | cur <;>
      simp only [hcur, Option.some.injEq, Prod.mk.injEq, reduceCtorEq] at hbody
    all_goals
      rw [← hbody.1, hconf] at hc
      exact absurd hc (by simp)
  | RevisionsChangingFile =>
    simp only [keyCaseBody] at hbody
    rcases hcur : current s with _ | _ | cur <;>
      simp only [hcur, Option.some.injEq, Prod.mk.injEq, reduceCtorEq] at hbody
    all_goals
      rw [← hbody.1, hconf] at hc
      exact absurd hc (by simp)
  | ToggleSelect =>
    simp only [keyCaseBody] at hbody
    rcases hcur : current s with _ | _ | cur <;>
      simp only [hcur, Option.some.injEq, Prod.mk.injEq, reduceCtorEq] at hbody
    · rw [← hbody.1, hconf] at hc
      exact absurd hc (by simp)
    · rw [← hbody.1] at hc
      unfold toggleSelect at hc
      rw [hdown _ (by simpa using hconf)] at hc
      exact absurd hc (by simp)
  | Split =>
    simp only [keyCaseBody] at hbody
    rcases hf : getSelectedFiles s with _ | files
    · simp [hf] at hbody
    · rcases hcur : current s with _ | _ | cur <;>
        simp only [hf, hcur, Option.some.injEq, Prod.mk.injEq, reduceCtorEq] at hbody
      rw [← hbody.1] at hc
      simp only [Option.some.injEq] at hc
      exact ⟨files, Or.inl ⟨cur, hc.symm⟩⟩
  | SplitParallel =>
    simp only [keyCaseBody] at hbody
    rcases hf : getSelectedFiles s with _ | files
    · simp [hf] at hbody
    · simp only [hf, Option.some.injEq, Prod.mk.injEq] at hbody
      rw [← hbody.1] at hc
      simp only [Option.some.injEq] at hc
      exact ⟨files, Or.inr (Or.inl hc.symm)⟩
  | Restore =>
    simp only [keyCaseBody] at hbody
    rcases hf : getSelectedFiles s with _ | files
    · simp [hf] at hbody
    · rcases hcur : current s with _ | _ | cur <;>
        simp only [hf, hcur, Option.some.injEq, Prod.mk.injEq, reduceCtorEq] at hbody
      rw [← hbody.1] at hc
      simp only [Option.some.injEq] at hc
      exact ⟨files, Or.inr (Or.inr (Or.inl ⟨cur, hc.symm⟩))⟩
  | Absorb =>
    simp only [keyCaseBody] at hbody
    rcases hf : getSelectedFiles s with _ | files
    · simp [hf] at hbody
    · simp only [hf, Option.some.injEq, Prod.mk.injEq] at hbody
      rw [← hbody.1] at hc
      simp only [Option.some.injEq] at hc
      exact ⟨files, Or.inr (Or.inr (Or.inr hc.symm))⟩

/-- C8: choosing "No" closes the confirmation without side effect. Every
confirmation the dispatcher builds has exactly one option labelled "No", and
it is bound to the confirmation close effect alone, whose message is the
`CloseMsg`; handling that message sets the confirmation to absent, clears both
hints, leaves the file list with its selected flags, the cursor and the
registry unchanged, and returns the nil command: no external command and no
refresh. -/
theorem no_option_closes_without_effect (zero : status) (run : JJ → CmdResult)
    (s s1 : Operation) (k : String) (cmd : Cmd) (c : Model)
    (hconf : s.confirmation = none)
    (hupd : internalUpdate s (Msg.KeyMsg k) = some (s1, cmd))
    (hc : s1.confirmation = some c) :
    c.options.filter (fun o => o.label = "No")
      = [{ label := "No", cmd := Cmd.effect Effect.ConfirmationClose,
           keyBinding := NewBinding ["n", "esc"] }] ∧
    Effect.ConfirmationClose.msg = Msg.CloseMsg ∧
    ∃ s2, Update zero run s1 Msg.CloseMsg = some (s2, Cmd.nil) ∧
      s2.confirmation = none ∧ s2.selectedHint = "" ∧ s2.unselectedHint = "" ∧
      s2.files = s1.files ∧ s2.cursor = s1.cursor ∧ s2.context = s1.context := by
  refine ⟨?_, rfl, _, rfl, rfl, rfl, rfl, rfl, rfl, rfl⟩
  cases hkey : keyCase s.keyMap k with
  | none =>
    simp only [internalUpdate, hconf, hkey, Option.some.injEq, Prod.mk.injEq] at hupd
    rw [← hupd.1, hconf] at hc
    exact absurd hc (by simp)
  | some kc =>
    rw [internalUpdate_of_keyCase s k kc hconf hkey] at hupd
    obtain ⟨files, h | h | h | h⟩ := keyCaseBody_confirmation s s1 kc cmd c hconf hupd hc
    · obtain ⟨selected, h⟩ := h
      rw [h]
      rfl
    · rw [h]
      rfl
    · obtain ⟨selected, h⟩ := h
      rw [h]
      rfl
    · rw [h]
      rfl

/-- C8, witness: the Restore key "r" on a list of two files, then "No". -/
theorem no_option_closes_without_effect_witness :
    (restoreConfirmation (demoState [demoItem "a.txt" true, demoItem "b.txt" false] 0)
        [bytes "a.txt"] (demoItem "a.txt" true)).options.filter (fun o => o.label = "No")
      = [{ label := "No", cmd := Cmd.effect Effect.ConfirmationClose,
           keyBinding := NewBinding ["n", "esc"] }] ∧
    Effect.ConfirmationClose.msg = Msg.CloseMsg ∧
    ∃ s2, Update status.unnamed demoRun
        { demoState [demoItem "a.txt" true, demoItem "b.txt" false] 0 with
          selectedHint := "gets restored", unselectedHint := "stays as is",
          confirmation := some
            (restoreConfirmation (demoState [demoItem "a.txt" true, demoItem "b.txt" false] 0)
              [bytes "a.txt"] (demoItem "a.txt" true)) }
        Msg.CloseMsg = some (s2, Cmd.nil) ∧
      s2.confirmation = none ∧ s2.selectedHint = "" ∧ s2.unselectedHint = "" ∧
      s2.files = [demoItem "a.txt" true, demoItem "b.txt" false] ∧ s2.cursor = 0 ∧
      s2.context = { CheckedItems := [], SelectedItem := none } :=
  no_option_closes_without_effect status.unnamed demoRun
    (demoState [demoItem "a.txt" true, demoItem "b.txt" false] 0)
    { demoState [demoItem "a.txt" true, demoItem "b.txt" false] 0 with
      selectedHint := "gets restored", unselectedHint := "stays as is",
      confirmation := some
        (restoreConfirmation (demoState [demoItem "a.txt" true, demoItem "b.txt" false] 0)
          [bytes "a.txt"] (demoItem "a.txt" true)) }
    "r" Cmd.confirmationInit
    (restoreConfirmation (demoState [demoItem "a.txt" true, demoItem "b.txt" false] 0)
      [bytes "a.txt"] (demoItem "a.txt" true))
    rfl (by decide) rfl

/-! ## Toggling the selection -/

theorem mem_AddCheckedItem (c : MainContext) (x y : SelectedItem) :
    y ∈ (AddCheckedItem c x).CheckedItems ↔ y ∈ c.CheckedItems ∨ y = x := by
  unfold AddCheckedItem
  split
  · constructor
    · exact Or.inl
    · rintro (h | h)
      · exact h
      · rw [h]
        assumption
  · simp

theorem mem_RemoveCheckedItem (c : MainContext) (x y : SelectedItem) :
    y ∈ (RemoveCheckedItem c x).CheckedItems ↔ y ∈ c.CheckedItems ∧ y ≠ x := by
  simp [RemoveCheckedItem]

theorem cursorDown_files (t : Operation) :
    (cursorDown t).files = t.files ∧ (cursorDown t).context = t.context := by
  unfold cursorDown
  split <;> exact ⟨rfl, rfl⟩

/-- C9: with no active confirmation, the ToggleSelect key on a non-empty list
flips the selected flag of the cursor item and of no other item, changes no
item's status, display name, fileName or conflict, and adds the (revisionId,
commitId, fileName) record of that item to the registry when the new flag is
true and removes it when the new flag is false, no other record of the
registry being touched; on an empty list it changes nothing. -/
theorem toggleSelect_cursor_item (s : Operation) (k : String)
    (hconf : s.confirmation = none)
    (hkey : keyCase s.keyMap k = some KeyCase.ToggleSelect) :
    (s.files = [] → internalUpdate s (Msg.KeyMsg k) = some (s, Cmd.nil)) ∧
    (∀ cur, s.files[s.cursor]? = some cur →
      ∃ s1, internalUpdate s (Msg.KeyMsg k) = some (s1, Cmd.nil) ∧
        s1.files.length = s.files.length ∧
        s1.files[s.cursor]? = some { cur with selected := !cur.selected } ∧
        (∀ j, j ≠ s.cursor → s1.files[j]? = s.files[j]?) ∧
        s1.files.map (fun f => (f.status, f.name, f.fileName, f.conflict))
          = s.files.map (fun f => (f.status, f.name, f.fileName, f.conflict)) ∧
        (cur.selected = false → selectedFileOf s cur.fileName ∈ s1.context.CheckedItems) ∧
        (cur.selected = true → selectedFileOf s cur.fileName ∉ s1.context.CheckedItems) ∧
        (∀ x, x ≠ selectedFileOf s cur.fileName →
          (x ∈ s1.context.CheckedItems ↔ x ∈ s.context.CheckedItems))) := by
  rw [internalUpdate_of_keyCase s k _ hconf hkey]
  constructor
  · intro hempty
    simp [keyCaseBody, current, hempty]
  · intro cur hcur
    have hlt : s.cursor < s.files.length := by
      rcases Nat.lt_or_ge s.cursor s.files.length with h | h
      · exact h
      · rw [List.getElem?_eq_none h] at hcur
        exact absurd hcur (by simp)
    have hcurrent : current s = some (some cur) :=
      current_of_cursor s cur (by rw [List.get?_eq_getElem?]; exact hcur)
    refine ⟨toggleSelect s cur, by simp only [keyCaseBody, hcurrent], ?_, ?_, ?_, ?_, ?_, ?_, ?_⟩
    · simp only [toggleSelect, (cursorDown_files _).1, List.length_set]
    · simp only [toggleSelect, (cursorDown_files _).1]
      exact List.getElem?_set_self hlt
    · intro j hj
      simp only [toggleSelect, (cursorDown_files _).1]
      exact List.getElem?_set_ne (Ne.symm hj)
    · simp only [toggleSelect, (cursorDown_files _).1, List.map_set]
      apply List.ext_getElem?
      intro j
      by_cases hj : s.cursor = j
      · subst hj
        rw [List.getElem?_set_self (by simpa using hlt), List.getElem?_map, hcur]
        rfl
      · rw [List.getElem?_set_ne hj]
    · intro hsel
      simp only [toggleSelect, (cursorDown_files _).2, hsel, Bool.not_false, if_true]
      exact (mem_AddCheckedItem _ _ _).mpr (Or.inr rfl)
    · intro hsel
      simp only [toggleSelect, (cursorDown_files _).2, hsel, Bool.not_true,
        Bool.false_eq_true, if_false]
      intro hmem
      exact ((mem_RemoveCheckedItem _ _ _).mp hmem).2 rfl
    · intro x hx
      simp only [toggleSelect, (cursorDown_files _).2]
      split
      · rw [mem_AddCheckedItem]
        constructor
        · rintro (h | h)
          · exact h
          · exact absurd h hx
        · exact Or.inl
      · rw [mem_RemoveCheckedItem]
        constructor
        · exact fun h => h.1
        · exact fun h => ⟨h, hx⟩

/-- C9, witness: the ToggleSelect key " " on the empty list, and with the
cursor on the unchecked second of three files. -/
theorem toggleSelect_cursor_item_witness :
    internalUpdate (demoState [] 0) (Msg.KeyMsg " ") = some (demoState [] 0, Cmd.nil) ∧
    ∃ s1,
      internalUpdate
          (demoState [demoItem "a.txt" true, demoItem "b.txt" false, demoItem "c.txt" false] 1)
          (Msg.KeyMsg " ") = some (s1, Cmd.nil) ∧
        s1.files[1]? = some (demoItem "b.txt" true) ∧
        s1.files[0]? = some (demoItem "a.txt" true) ∧
        SelectedItem.file { ChangeId := bytes "rev", CommitId := bytes "c0", File := bytes "b.txt" }
          ∈ s1.context.CheckedItems := by
  refine ⟨(toggleSelect_cursor_item (demoState [] 0) " " rfl (by decide)).1 rfl, ?_⟩
  obtain ⟨s1, h1, -, h3, h4, -, h6, -, -⟩ :=
    (toggleSelect_cursor_item
      (demoState [demoItem "a.txt" true, demoItem "b.txt" false, demoItem "c.txt" false] 1)
      " " rfl (by decide)).2 (demoItem "b.txt" false) rfl
  exact ⟨s1, h1, h3, h4 0 (by decide), h6 rfl⟩

/-! ## Keys while a confirmation is active -/

/-- C10: while a confirmation is active, `internalUpdate` hands every key
message to the confirmation only: whatever the key and the key map, the state
is returned as it was (file list, selected flags, cursor, hints, registry and
the pending confirmation itself, so no new confirmation is built), with the
command the confirmation chose for the key. -/
theorem internalUpdate_active_confirmation (s : Operation) (c : Model) (k : String)
    (hconf : s.confirmation = some c) :
    internalUpdate s (Msg.KeyMsg k) = some (s, (confirmationUpdate c k).2) ∧
    (confirmationUpdate c k).1 = c ∧
    ∀ keyMap : KeyMappings,
      internalUpdate { s with keyMap := keyMap } (Msg.KeyMsg k)
        = some ({ s with keyMap := keyMap }, (confirmationUpdate c k).2) := by
  have hsame : (confirmationUpdate c k).1 = c := by
    unfold confirmationUpdate
    split
    · rfl
    · split <;> rfl
  refine ⟨?_, hsame, ?_⟩
  · simp only [internalUpdate, hconf, hsame]
    cases s
    simp only at hconf
    subst hconf
    rfl
  · intro keyMap
    simp only [internalUpdate, hconf, hsame]

/-- C10, witness: with the Split confirmation pending, the ToggleSelect key
" " and the Down key leave the state as it is and give the nil command, and
the key "y" leaves the state as it is and gives the command of the option
"Yes". -/
theorem internalUpdate_active_confirmation_witness :
    internalUpdate demoPending (Msg.KeyMsg " ") = some (demoPending, Cmd.nil) ∧
    internalUpdate demoPending (Msg.KeyMsg "down") = some (demoPending, Cmd.nil) ∧
    internalUpdate demoPending (Msg.KeyMsg "y")
      = some (demoPending,
          Cmd.Batch
            (Cmd.RunInteractiveCommand (JJ.Split (bytes "rev") [bytes "a.txt"] false)
              [Effect.Refresh])
            (Cmd.effect Effect.Close)) :=
  ⟨(internalUpdate_active_confirmation demoPending
      (splitConfirmation (demoState [demoItem "a.txt" false, demoItem "b.txt" false] 0)
        [bytes "a.txt"] (demoItem "a.txt" false)) " " rfl).1,
   (internalUpdate_active_confirmation demoPending
      (splitConfirmation (demoState [demoItem "a.txt" false, demoItem "b.txt" false] 0)
        [bytes "a.txt"] (demoItem "a.txt" false)) "down" rfl).1,
   (internalUpdate_active_confirmation demoPending
      (splitConfirmation (demoState [demoItem "a.txt" false, demoItem "b.txt" false] 0)
        [bytes "a.txt"] (demoItem "a.txt" false)) "y" rfl).1⟩

/-! ## A failed load -/

theorem Update_CommandCompletedMsg (zero : status) (run : JJ → CmdResult) (s : Operation)
    (output : GoString) (err : Option GoString) :
    Update zero run s (Msg.CommandCompletedMsg output err) = some (s, Cmd.nil) := by
  simp [Update, internalUpdate]

/-- C11: when the snapshot call or the status call fails, `load` yields the
closure of a command-completed message carrying the raw output and the error
of the failing call instead of an `updateCommitStatusMsg`, and handling that
message returns the state as it was (file list, selected flags, cursor) with
the nil command. -/
theorem load_failure (zero : status) (run : JJ → CmdResult) (s : Operation)
    (hfail : (run JJ.Snapshot).err ≠ none ∨ (run (JJ.Status s.revision.GetChangeId)).err ≠ none) :
    ∃ output e, load run s.revision.GetChangeId = Cmd.commandCompleted output (some e) ∧
      (((run JJ.Snapshot).err = some e ∧ output = (run JJ.Snapshot).output) ∨
        ((run JJ.Snapshot).err = none ∧ (run (JJ.Status s.revision.GetChangeId)).err = some e ∧
          output = (run (JJ.Status s.revision.GetChangeId)).output)) ∧
      runLoadCmd s (load run s.revision.GetChangeId)
        = some (Msg.CommandCompletedMsg output (some e)) ∧
      (∀ summary, load run s.revision.GetChangeId ≠ Cmd.updateCommitStatus summary) ∧
      Update zero run s (Msg.CommandCompletedMsg output (some e)) = some (s, Cmd.nil) := by
  cases h1 : (run JJ.Snapshot).err with
  | some e =>
    have hload : load run s.revision.GetChangeId
        = Cmd.commandCompleted (run JJ.Snapshot).output (some e) := by
      simp only [load, h1]
    refine ⟨_, e, hload, Or.inl ⟨rfl, rfl⟩, ?_, ?_, Update_CommandCompletedMsg _ _ _ _ _⟩
    · rw [hload]
      rfl
    · intro summary
      rw [hload]
      exact fun h => Cmd.noConfusion h
  | none =>
    cases h2 : (run (JJ.Status s.revision.GetChangeId)).err with
    | none =>
      rcases hfail with h | h
      · exact absurd h1 h
      · exact absurd h2 h
    | some e =>
      have hload : load run s.revision.GetChangeId
          = Cmd.commandCompleted (run (JJ.Status s.revision.GetChangeId)).output (some e) := by
        simp only [load, h1, h2]
      refine ⟨_, e, hload, Or.inr ⟨rfl, rfl, rfl⟩, ?_, ?_, Update_CommandCompletedMsg _ _ _ _ _⟩
      · rw [hload]
        rfl
      · intro summary
        rw [hload]
        exact fun h => Cmd.noConfusion h

/-- C11, witness: the status call fails on a list of two files, the second
checked, the cursor on it. -/
theorem load_failure_witness :
    load demoStatusFails (bytes "rev")
      = Cmd.commandCompleted (bytes "Error: no such revision") (some (bytes "exit status 1")) ∧
    load demoSnapshotFails (bytes "rev")
      = Cmd.commandCompleted (bytes "Error: no repository") (some (bytes "exit status 1")) ∧
    ∃ output e,
      load demoStatusFails (demoState [demoItem "a.txt" false, demoItem "b.txt" true] 1).revision.GetChangeId
        = Cmd.commandCompleted output (some e) ∧
      Update status.unnamed demoStatusFails
          (demoState [demoItem "a.txt" false, demoItem "b.txt" true] 1)
          (Msg.CommandCompletedMsg output (some e))
        = some (demoState [demoItem "a.txt" false, demoItem "b.txt" true] 1, Cmd.nil) := by
  refine ⟨by decide, by decide, ?_⟩
  obtain ⟨output, e, h1, -, -, -, h5⟩ :=
    load_failure status.unnamed demoStatusFails
      (demoState [demoItem "a.txt" false, demoItem "b.txt" true] 1) (Or.inr (by decide))
  exact ⟨output, e, h1, h5⟩

/-! ## The parser on a text without a first line -/

/-- C12: for the empty text, and for every text on which the scanner yields
no first line, `createListItems` returns the empty sequence and does not
fail, whatever the list of previously selected names. -/
theorem createListItems_no_first_line (zero : status) (names : List GoString) :
    createListItems zero [] names = some [] ∧
    createListItems zero (bytes "") names = some [] ∧
    ∀ content, scanLines content = [] → createListItems zero content names = some [] := by
  refine ⟨rfl, rfl, ?_⟩
  intro content h
  simp only [createListItems, h]

/-! ## The notification of a cursor move -/

theorem cursorDown_cursor (t : Operation) :
    (cursorDown t).revision = t.revision ∧ (cursorDown t).files = t.files ∧
      ((cursorDown t).cursor ≠ t.cursor → (cursorDown t).cursor < t.files.length) := by
  unfold cursorDown
  split
  · exact ⟨rfl, rfl, fun _ => by assumption⟩
  · exact ⟨rfl, rfl, fun h => absurd rfl h⟩

theorem cursorUp_cursor (t : Operation) (hinv : cursorInvariant t) :
    (cursorUp t).revision = t.revision ∧ (cursorUp t).files = t.files ∧
      ((cursorUp t).cursor ≠ t.cursor → (cursorUp t).cursor < t.files.length) := by
  unfold cursorUp
  split
  · refine ⟨rfl, rfl, fun _ => ?_⟩
    rcases hinv with h | h
    · show t.cursor - 1 < t.files.length
      omega
    · omega
  · exact ⟨rfl, rfl, fun h => absurd rfl h⟩

theorem keyCaseBody_cursor (s s1 : Operation) (kc : KeyCase) (cmd : Cmd)
    (hinv : cursorInvariant s) (hbody : keyCaseBody s kc = some (s1, cmd)) :
    s1.revision = s.revision ∧ (s1.cursor ≠ s.cursor → s1.cursor < s1.files.length) := by
  cases kc with
  | Up =>
    simp only [keyCaseBody, Option.some.injEq, Prod.mk.injEq] at hbody
    obtain ⟨h1, h2, h3⟩ := cursorUp_cursor s hinv
    rw [← hbody.1, h2]
    exact ⟨h1, h3⟩
  | Down =>
    simp only [keyCaseBody, Option.some.injEq, Prod.mk.injEq] at hbody
    obtain ⟨h1, h2, h3⟩ := cursorDown_cursor s
    rw [← hbody.1, h2]
    exact ⟨h1, h3⟩
  | Close =>
    simp only [keyCaseBody, Option.some.injEq, Prod.mk.injEq] at hbody
    rw [← hbody.1]
    exact ⟨rfl, fun h => absurd rfl h⟩
  | Refresh =>
    simp only [keyCaseBody, Option.some.injEq, Prod.mk.injEq] at hbody
    rw [← hbody.1]
    exact ⟨rfl, fun h => absurd rfl h⟩
  | Squash =>
    simp only [keyCaseBody, Option.some.injEq, Prod.mk.injEq] at hbody
    rw [← hbody.1]
    exact ⟨rfl, fun h => absurd rfl h⟩
  | Diff =>
    simp only [keyCaseBody] at hbody
    rcases hcur : current s with _ | _ | cur <;>
      simp only [hcur, Option.some.injEq, Prod.mk.injEq, reduceCtorEq] at hbody
    all_goals
      rw [← hbody.1]
      exact ⟨rfl, fun h => absurd rfl h⟩
  | RevisionsChangingFile =>
    simp only [keyCaseBody] at hbody
    rcases hcur : current s with _ | _ | cur <;>
      simp only [hcur, Option.some.injEq, Prod.mk.injEq, reduceCtorEq] at hbody
    all_goals
      rw [← hbody.1]
      exact ⟨rfl, fun h => absurd rfl h⟩
  | ToggleSelect =>
    simp only [keyCaseBody] at hbody
    rcases hcur : current s with _ | _ | cur <;>
      simp only [hcur, Option.some.injEq, Prod.mk.injEq, reduceCtorEq] at hbody
    · rw [← hbody.1]
      exact ⟨rfl, fun h => absurd rfl h⟩
    · rw [← hbody.1]
      unfold toggleSelect
      obtain ⟨h1, h2, h3⟩ := cursorDown_cursor
        { s with
          files := s.files.set s.cursor { cur with selected := !cur.selected },
          context :=
            if (!cur.selected) = true then
              AddCheckedItem s.context (selectedFileOf s cur.fileName)
            else RemoveCheckedItem s.context (selectedFileOf s cur.fileName) }
      exact ⟨h1, fun h => by rw [h2]; exact h3 h⟩
  | Split =>
    simp only [keyCaseBody] at hbody
    rcases hf : getSelectedFiles s with _ | files
    · simp [hf] at hbody
    · rcases hcur : current s with _ | _ | cur <;>
        simp only [hf, hcur, Option.some.injEq, Prod.mk.injEq, reduceCtorEq] at hbody
      rw [← hbody.1]
      exact ⟨rfl, fun h => absurd rfl h⟩
  | SplitParallel =>
    simp only [keyCaseBody] at hbody
    rcases hf : getSelectedFiles s with _ | files
    · simp [hf] at hbody
    · simp only [hf, Option.some.injEq, Prod.mk.injEq] at hbody
      rw [← hbody.1]
      exact ⟨rfl, fun h => absurd rfl h⟩
  | Restore =>
    simp only [keyCaseBody] at hbody
    rcases hf : getSelectedFiles s with _ | files
    · simp [hf] at hbody
    · rcases hcur : current s with _ | _ | cur <;>
        simp only [hf, hcur, Option.some.injEq, Prod.mk.injEq, reduceCtorEq] at hbody
      rw [← hbody.1]
      exact ⟨rfl, fun h => absurd rfl h⟩
  | Absorb =>
    simp only [keyCaseBody] at hbody
    rcases hf : getSelectedFiles s with _ | files
    · simp [hf] at hbody
    · simp only [hf, Option.some.injEq, Prod.mk.injEq] at hbody
      rw [← hbody.1]
      exact ⟨rfl, fun h => absurd rfl h⟩

theorem internalUpdate_cursor (s s1 : Operation) (msg : Msg) (cmd : Cmd)
    (hinv : cursorInvariant s) (hupd : internalUpdate s msg = some (s1, cmd)) :
    s1.revision = s.revision ∧ (s1.cursor ≠ s.cursor → s1.cursor < s1.files.length) := by
  have hsame : ∀ t : Operation, t.revision = s.revision → t.cursor = s.cursor →
      some (t, Cmd.nil) = some (s1, cmd) →
      s1.revision = s.revision ∧ (s1.cursor ≠ s.cursor → s1.cursor < s1.files.length) := by
    intro t hr hc h
    simp only [Option.some.injEq, Prod.mk.injEq] at h
    rw [← h.1]
    exact ⟨hr, fun h2 => absurd hc h2⟩
  cases msg with
  | KeyMsg k =>
    cases hconf : s.confirmation with
    | some c =>
      simp only [internalUpdate, hconf, Option.some.injEq, Prod.mk.injEq] at hupd
      rw [← hupd.1]
      exact ⟨rfl, fun h => absurd rfl h⟩
    | none =>
      cases hkey : keyCase s.keyMap k with
      | none =>
        simp only [internalUpdate, hconf, hkey] at hupd
        exact hsame s rfl rfl hupd
      | some kc =>
        rw [internalUpdate_of_keyCase s k kc hconf hkey] at hupd
        exact keyCaseBody_cursor s s1 kc cmd hinv hupd
  | CloseMsg => exact hsame s rfl rfl (by simpa [internalUpdate] using hupd)
  | RefreshMsg => exact hsame s rfl rfl (by simpa [internalUpdate] using hupd)
  | updateCommitStatusMsg a b => exact hsame s rfl rfl (by simpa [internalUpdate] using hupd)
  | CommandCompletedMsg a b => exact hsame s rfl rfl (by simpa [internalUpdate] using hupd)
  | CloseViewMsg => exact hsame s rfl rfl (by simpa [internalUpdate] using hupd)
  | otherMsg n => exact hsame s rfl rfl (by simpa [internalUpdate] using hupd)

theorem Update_default (zero : status) (run : JJ → CmdResult) (s : Operation) (msg : Msg)
    (hmsg : msg.isDefault = true) :
    Update zero run s msg =
      match internalUpdate s msg with
      | none => none
      | some (s1, cmd) =>
        if s1.cursor ≠ s.cursor then
          match current s1 with
          | some (some cur) =>
            some ({ s1 with context :=
                      (SetSelectedItem s1.context (some (selectedFileOf s1 cur.fileName))).1 },
                  Cmd.Batch cmd
                    (SetSelectedItem s1.context (some (selectedFileOf s1 cur.fileName))).2)
          | _ => none
        else some (s1, cmd) := by
  cases msg with
  | CloseMsg => simp [Msg.isDefault] at hmsg
  | RefreshMsg => simp [Msg.isDefault] at hmsg
  | updateCommitStatusMsg a b => simp [Msg.isDefault] at hmsg
  | KeyMsg k => rfl
  | CommandCompletedMsg a b => rfl
  | CloseViewMsg => rfl
  | otherMsg n => rfl

/-- C13: for every message handled by the default branch of `Update`, in a
state whose cursor is inside the list (or 0 on an empty list), the command
returned is the command of `internalUpdate` when the cursor after handling
equals the cursor before, and is that command batched with the "selected item
changed" notification carrying (revisionId, commitId, fileName of the item now
under the cursor) when the cursor differs: the notification is added exactly
when the cursor moved. -/
theorem Update_selection_changed (zero : status) (run : JJ → CmdResult) (s s1 : Operation)
    (msg : Msg) (cmd : Cmd) (hmsg : msg.isDefault = true) (hinv : cursorInvariant s)
    (hupd : internalUpdate s msg = some (s1, cmd)) :
    (s1.cursor = s.cursor → Update zero run s msg = some (s1, cmd)) ∧
    (s1.cursor ≠ s.cursor →
      ∃ cur, s1.files[s1.cursor]? = some cur ∧
        Update zero run s msg
          = some
              ({ s1 with context :=
                  { CheckedItems := s1.context.CheckedItems,
                    SelectedItem :=
                      some (SelectedItem.file
                        { ChangeId := s.revision.GetChangeId, CommitId := s.revision.CommitId,
                          File := cur.fileName }) } },
               Cmd.Batch cmd
                 (Cmd.selectionChanged
                   (SelectedItem.file
                     { ChangeId := s.revision.GetChangeId, CommitId := s.revision.CommitId,
                       File := cur.fileName })))) := by
  rw [Update_default zero run s msg hmsg, hupd]
  obtain ⟨hrev, hcursor⟩ := internalUpdate_cursor s s1 msg cmd hinv hupd
  constructor
  · intro h
    simp only [h, ne_eq, not_true_eq_false, if_false]
  · intro h
    have hlt := hcursor h
    have hget : s1.files.get? s1.cursor = some (s1.files.get ⟨s1.cursor, hlt⟩) :=
      List.get?_eq_get hlt
    refine ⟨s1.files.get ⟨s1.cursor, hlt⟩, by rw [← List.get?_eq_getElem?]; exact hget, ?_⟩
    simp only [h, ne_eq, not_false_eq_true, if_true, current_of_cursor s1 _ hget,
      SetSelectedItem, selectedFileOf, hrev]

/-- C13, witness: on three files with the cursor on the first, the Down key
moves the cursor and the command carries the notification for b.txt; the Diff
key "d" does not move it and its command carries none. -/
theorem Update_selection_changed_witness :
    Update status.unnamed demoRun
        (demoState [demoItem "a.txt" false, demoItem "b.txt" false, demoItem "c.txt" false] 0)
        (Msg.KeyMsg "d")
      = some
          (demoState [demoItem "a.txt" false, demoItem "b.txt" false, demoItem "c.txt" false] 0,
           Cmd.showDiff (JJ.Diff (bytes "rev") (bytes "a.txt"))) ∧
    ∃ cur,
      (demoState [demoItem "a.txt" false, demoItem "b.txt" false, demoItem "c.txt" false]
        1).files[1]? = some cur ∧
      Update status.unnamed demoRun
          (demoState [demoItem "a.txt" false, demoItem "b.txt" false, demoItem "c.txt" false] 0)
          (Msg.KeyMsg "down")
        = some
            ({ demoState [demoItem "a.txt" false, demoItem "b.txt" false, demoItem "c.txt" false]
                 1 with
               context :=
                 { CheckedItems := [],
                   SelectedItem :=
                     some (SelectedItem.file
                       { ChangeId := bytes "rev", CommitId := bytes "c0",
                         File := cur.fileName }) } },
             Cmd.Batch Cmd.nil
               (Cmd.selectionChanged
                 (SelectedItem.file
                   { ChangeId := bytes "rev", CommitId := bytes "c0", File := cur.fileName }))) :=
  ⟨(Update_selection_changed status.unnamed demoRun
      (demoState [demoItem "a.txt" false, demoItem "b.txt" false, demoItem "c.txt" false] 0)
      (demoState [demoItem "a.txt" false, demoItem "b.txt" false, demoItem "c.txt" false] 0)
      (Msg.KeyMsg "d") (Cmd.showDiff (JJ.Diff (bytes "rev") (bytes "a.txt")))
      rfl (Or.inl (by decide)) (by decide)).1 rfl,
   (Update_selection_changed status.unnamed demoRun
      (demoState [demoItem "a.txt" false, demoItem "b.txt" false, demoItem "c.txt" false] 0)
      (demoState [demoItem "a.txt" false, demoItem "b.txt" false, demoItem "c.txt" false] 1)
      (Msg.KeyMsg "down") Cmd.nil
      rfl (Or.inl (by decide)) (by decide)).2 (by decide)⟩

/-! ## The parser on malformed texts -/

/-- C14, the code at the failing inputs: with one flag and two entries the
lookup `conflicts[index]` of the second entry panics, and with an entry of a
single character the slice `file[2:]` panics; no sequence is returned. -/
theorem createListItems_panics :
    (∀ zero names, createListItems zero (bytes "true\nM a.txt\nM b.txt") names = none) ∧
    (∀ zero names, createListItems zero (bytes "false\nM") names = none) ∧
    (Split (bytes "true")).length = 1 ∧
    nonBlankLines [bytes "M a.txt", bytes "M b.txt"] = [bytes "M a.txt", bytes "M b.txt"] ∧
    (TrimSpace (bytes "M")).length = 1 :=
  ⟨fun _ _ => rfl, fun _ _ => rfl, by decide, by decide, by decide⟩

/-! ## The parser: paths kept verbatim -/

theorem mem_zipWith_left {α β γ : Type} (f : α → β → γ) :
    ∀ (l1 : List α) (l2 : List β) (x : γ), x ∈ List.zipWith f l1 l2 →
      ∃ a ∈ l1, ∃ b, x = f a b := by
  intro l1
  induction l1 with
  | nil => intro l2 x h; simp at h
  | cons a t ih =>
    intro l2 x h
    cases l2 with
    | nil => simp at h
    | cons b t2 =>
      simp only [List.zipWith_cons_cons, List.mem_cons] at h
      rcases h with h | h
      · exact ⟨a, List.mem_cons_self _ _, b, h⟩
      · obtain ⟨a1, ha1, b1, hx⟩ := ih t2 x h
        exact ⟨a1, List.mem_cons_of_mem _ ha1, b1, hx⟩

theorem createListItems_item_line (zero : status) (content : GoString)
    (names : List GoString) (items : List item)
    (h : createListItems zero content names = some items) :
    ∀ it ∈ items, ∃ file ∈ nonBlankLines (scanLines content).tail,
      it.status = parseStatus zero (file.headD 0) ∧ it.name = file.drop 2 := by
  intro it hit
  unfold createListItems at h
  split at h
  · simp only [Option.some.injEq] at h
    rw [← h] at hit
    simp at hit
  · rename_i first rest hscan
    rw [createListItemsLoop_eq_zipWith zero names _ rest 0 items h] at hit
    obtain ⟨file, hfile, c, rfl⟩ := mem_zipWith_left _ _ _ it hit
    exact ⟨file, by rw [hscan]; exact hfile, rfl, rfl⟩

theorem actualFileName_of_status (st : status) (p : GoString)
    (h : st ≠ Renamed ∧ st ≠ Copied) : actualFileName st p = p := by
  unfold actualFileName
  rw [if_neg]
  rintro ⟨h1 | h1, -⟩
  · exact h.1 h1
  · exact h.2 h1

/-- C15 (amended): for every entry whose status is Added, Deleted or
Modified, and for every Renamed or Copied entry whose path contains no
opening brace, `createListItems` sets fileName equal to the path verbatim (the
trimmed entry text after its first two bytes, the status character and the
space), identical to the item's display name, even when that path itself
contains braces or " => " under a non-rename status. -/
theorem createListItems_verbatim (zero : status) (content : GoString)
    (names : List GoString) (items : List item) (it : item)
    (h : createListItems zero content names = some items) (hit : it ∈ items)
    (hst : it.status = Added ∨ it.status = Deleted ∨ it.status = Modified ∨
      (123 : UInt8) ∉ it.name) :
    it.fileName = it.name ∧
      ∃ file ∈ nonBlankLines (scanLines content).tail, it.name = file.drop 2 := by
  constructor
  · have hshape := createListItems_item_shape zero content names items h it hit
    have hf : it.fileName = actualFileName it.status it.name := by
      conv_lhs => rw [hshape]
      rfl
    rw [hf]
    rcases hst with e | e | e | e
    · exact actualFileName_of_status _ _ (by rw [e]; decide)
    · exact actualFileName_of_status _ _ (by rw [e]; decide)
    · exact actualFileName_of_status _ _ (by rw [e]; decide)
    · exact actualFileName_of_no_brace _ _ e
  · obtain ⟨file, hfile, -, hname⟩ := createListItems_item_line zero content names items h it hit
    exact ⟨file, hfile, hname⟩

/-- C15, witness: a Modified entry whose path holds a brace span. -/
theorem createListItems_verbatim_witness :
    (demoItem "src/\x7ba => b\x7d.txt" false).fileName
        = (demoItem "src/\x7ba => b\x7d.txt" false).name ∧
      ∃ file ∈ nonBlankLines
          (scanLines (bytes "false false\n  M src/\x7ba => b\x7d.txt\nR old => new")).tail,
        (demoItem "src/\x7ba => b\x7d.txt" false).name = file.drop 2 :=
  createListItems_verbatim status.unnamed
    (bytes "false false\n  M src/\x7ba => b\x7d.txt\nR old => new") []
    [demoItem "src/\x7ba => b\x7d.txt" false,
      ⟨Renamed, bytes "old => new", bytes "old => new", false, false⟩]
    (demoItem "src/\x7ba => b\x7d.txt" false) (by decide) (by decide)
    (Or.inr (Or.inr (Or.inl rfl)))

/-- C15, counterexample: the Renamed entry "R dir//a\x7b.txt" has an opening
brace but no brace span (no closing brace), and its fileName is the cleaned
"dir/a\x7b.txt", not the path verbatim. -/
theorem createListItems_open_brace_counterexample :
    ∃ items it, (∀ zero, createListItems zero (bytes "false\nR dir//a\x7b.txt") [] = some items) ∧
      it ∈ items ∧ it.status = Renamed ∧ it.name = bytes "dir//a\x7b.txt" ∧
      (125 : UInt8) ∉ it.name ∧ it.fileName = bytes "dir/a\x7b.txt" ∧ it.fileName ≠ it.name :=
  ⟨[⟨Renamed, bytes "dir//a\x7b.txt", bytes "dir/a\x7b.txt", false, false⟩],
    ⟨Renamed, bytes "dir//a\x7b.txt", bytes "dir/a\x7b.txt", false, false⟩,
    fun _ => rfl, by decide, rfl, rfl, by decide, rfl, by decide⟩

/-! ## The run primitive of each option -/

/-- C16 (amended): in a state with no active confirmation and the cursor
inside the list, the confirmations built by the Restore and Absorb keys
dispatch the command of "Yes" through the asynchronous run primitive
`RunCommand`, with the refresh and the close of the confirmation queued on
completion; the confirmations built by the Split and SplitParallel keys
dispatch the command of "Yes" through the foreground interactive run primitive
`RunInteractiveCommand`, with the refresh queued on completion, as do the
"Interactive" options of Split and Restore. -/
theorem confirmation_run_primitives (s : Operation) (k : String)
    (hconf : s.confirmation = none) (hcur : s.cursor < s.files.length) :
    ∃ files cur, getSelectedFiles s = some files ∧ s.files.get? s.cursor = some cur ∧
      (keyCase s.keyMap k = some KeyCase.Split →
        ∃ s1 c, internalUpdate s (Msg.KeyMsg k) = some (s1, Cmd.confirmationInit) ∧
          s1.confirmation = some c ∧
          c.options.map (fun o => (o.label, o.cmd))
            = [("Yes", Cmd.Batch
                  (Cmd.RunInteractiveCommand (JJ.Split s.revision.GetChangeId files false)
                    [Effect.Refresh])
                  (Cmd.effect Effect.Close)),
               ("Interactive", Cmd.Batch
                  (Cmd.RunInteractiveCommand
                    (JJ.SplitInteractive s.revision.GetChangeId cur.fileName) [Effect.Refresh])
                  (Cmd.effect Effect.Close)),
               ("No", Cmd.effect Effect.ConfirmationClose)]) ∧
      (keyCase s.keyMap k = some KeyCase.SplitParallel →
        ∃ s1 c, internalUpdate s (Msg.KeyMsg k) = some (s1, Cmd.confirmationInit) ∧
          s1.confirmation = some c ∧
          c.options.map (fun o => (o.label, o.cmd))
            = [("Yes", Cmd.Batch
                  (Cmd.RunInteractiveCommand (JJ.Split s.revision.GetChangeId files true)
                    [Effect.Refresh])
                  (Cmd.effect Effect.Close)),
               ("No", Cmd.effect Effect.ConfirmationClose)]) ∧
      (keyCase s.keyMap k = some KeyCase.Restore →
        ∃ s1 c, internalUpdate s (Msg.KeyMsg k) = some (s1, Cmd.confirmationInit) ∧
          s1.confirmation = some c ∧
          c.options.map (fun o => (o.label, o.cmd))
            = [("Yes", Cmd.RunCommand (JJ.Restore s.revision.GetChangeId files)
                  [Effect.Refresh, Effect.ConfirmationClose]),
               ("Interactive", Cmd.Batch
                  (Cmd.RunInteractiveCommand
                    (JJ.RestoreInteractive s.revision.GetChangeId cur.fileName) [Effect.Refresh])
                  (Cmd.effect Effect.Close)),
               ("No", Cmd.effect Effect.ConfirmationClose)]) ∧
      (keyCase s.keyMap k = some KeyCase.Absorb →
        ∃ s1 c, internalUpdate s (Msg.KeyMsg k) = some (s1, Cmd.confirmationInit) ∧
          s1.confirmation = some c ∧
          c.options.map (fun o => (o.label, o.cmd))
            = [("Yes", Cmd.RunCommand (JJ.Absorb s.revision.GetChangeId files)
                  [Effect.Refresh, Effect.ConfirmationClose]),
               ("No", Cmd.effect Effect.ConfirmationClose)]) := by
  obtain ⟨files, cur, hfiles, -, hget, -, -⟩ := getSelectedFiles_of_cursor s hcur
  refine ⟨files, cur, hfiles, hget, ?_, ?_, ?_, ?_⟩
  · intro hkey
    rw [internalUpdate_of_keyCase s k _ hconf hkey]
    simp only [keyCaseBody, hfiles, current_of_cursor s cur hget]
    exact ⟨_, _, rfl, rfl, rfl⟩
  · intro hkey
    rw [internalUpdate_of_keyCase s k _ hconf hkey]
    simp only [keyCaseBody, hfiles]
    exact ⟨_, _, rfl, rfl, rfl⟩
  · intro hkey
    rw [internalUpdate_of_keyCase s k _ hconf hkey]
    simp only [keyCaseBody, hfiles, current_of_cursor s cur hget]
    exact ⟨_, _, rfl, rfl, rfl⟩
  · intro hkey
    rw [internalUpdate_of_keyCase s k _ hconf hkey]
    simp only [keyCaseBody, hfiles]
    exact ⟨_, _, rfl, rfl, rfl⟩

/-- C16, witness: the Restore key "r" with a.txt checked and the cursor on
b.txt: "Yes" runs Restore on a.txt through `RunCommand`, "Interactive" runs
the interactive restore of b.txt in the foreground. -/
theorem confirmation_run_primitives_witness :
    ∃ s1 c,
      internalUpdate (demoState [demoItem "a.txt" true, demoItem "b.txt" false] 1)
          (Msg.KeyMsg "r") = some (s1, Cmd.confirmationInit) ∧
        s1.confirmation = some c ∧
        c.options.map (fun o => (o.label, o.cmd))
          = [("Yes", Cmd.RunCommand (JJ.Restore (bytes "rev") [bytes "a.txt"])
                [Effect.Refresh, Effect.ConfirmationClose]),
             ("Interactive", Cmd.Batch
                (Cmd.RunInteractiveCommand
                  (JJ.RestoreInteractive (bytes "rev") (bytes "b.txt")) [Effect.Refresh])
                (Cmd.effect Effect.Close)),
             ("No", Cmd.effect Effect.ConfirmationClose)] := by
  obtain ⟨files, cur, hfiles, hget, -, -, hrestore, -⟩ :=
    confirmation_run_primitives (demoState [demoItem "a.txt" true, demoItem "b.txt" false] 1)
      "r" rfl (by decide)
  have hf : files = [bytes "a.txt"] := by
    have h2 : getSelectedFiles (demoState [demoItem "a.txt" true, demoItem "b.txt" false] 1)
        = some [bytes "a.txt"] := by decide
    rw [h2] at hfiles
    exact (Option.some.inj hfiles).symm
  have hc : cur = demoItem "b.txt" false := by
    have h2 : (demoState [demoItem "a.txt" true, demoItem "b.txt" false] 1).files.get?
        (demoState [demoItem "a.txt" true, demoItem "b.txt" false] 1).cursor
        = some (demoItem "b.txt" false) := by decide
    rw [h2] at hget
    exact (Option.some.inj hget).symm
  subst hf
  subst hc
  exact hrestore (by decide)

/-- C16, counterexample: the option "Yes" built by the Split key is
dispatched through `RunInteractiveCommand`, not through `RunCommand`. -/
theorem split_yes_not_asynchronous_counterexample :
    ∃ s1 c o,
      internalUpdate (demoState [demoItem "a.txt" true, demoItem "b.txt" false] 1)
          (Msg.KeyMsg "s") = some (s1, Cmd.confirmationInit) ∧
        s1.confirmation = some c ∧ o ∈ c.options ∧ o.label = "Yes" ∧
        o.cmd = Cmd.Batch
          (Cmd.RunInteractiveCommand (JJ.Split (bytes "rev") [bytes "a.txt"] false)
            [Effect.Refresh])
          (Cmd.effect Effect.Close) ∧
        ∀ args continuations, o.cmd ≠ Cmd.RunCommand args continuations :=
  ⟨_, _, _, rfl, rfl, List.mem_cons_self _ _, rfl, rfl, fun _ _ h => Cmd.noConfusion h⟩

/-! ## The status of an entry -/

theorem map_zipWith_left {α β γ δ : Type} (f : α → β → γ) (h : γ → δ) (g : α → δ)
    (hfg : ∀ a b, h (f a b) = g a) :
    ∀ (l1 : List α) (l2 : List β), l1.length ≤ l2.length →
      (List.zipWith f l1 l2).map h = l1.map g := by
  intro l1
  induction l1 with
  | nil => intro l2 _; simp
  | cons a t ih =>
    intro l2 hlen
    cases l2 with
    | nil => simp at hlen
    | cons b t2 =>
      simp only [List.length_cons, Nat.add_le_add_iff_right] at hlen
      simp only [List.zipWith_cons_cons, List.map_cons, hfg, ih t2 hlen]

/-- C17 (amended): in a text whose lines, carriage return included, are
each shorter than the 65536 bytes of the scanner's buffer, whose header holds
a flag for every non-blank line after it and whose non-blank lines have at
least two bytes once trimmed, every non-blank line produces an item, in
order, whose status is decided by the first byte of the trimmed line alone:
'A' gives Added, 'D' Deleted, 'M' Modified, 'R' Renamed, 'C' Copied, and any
other byte gives the zero value of the status type; the fileName of an item
whose status is neither Renamed nor Copied (so of an entry with another first
character, unless the zero value is one of these two) is the path verbatim.
The lines are those of the text as written (`textLines`), not the tokens of
the scanner. -/
theorem createListItems_status_of_first_byte (zero : status) (content : GoString)
    (names : List GoString)
    (hfit : ∀ l ∈ rawLines content, l.length < maxScanTokenSize)
    (hshape : ∀ l ∈ nonBlankLines (textLines content).tail, 2 ≤ l.length)
    (hflags : (nonBlankLines (textLines content).tail).length
      ≤ (Split ((textLines content).headD [])).length) :
    ∃ items, createListItems zero content names = some items ∧
      items.map (fun it => (it.status, it.name))
        = (nonBlankLines (textLines content).tail).map
            (fun l => (parseStatus zero (l.headD 0), l.drop 2)) ∧
      (parseStatus zero 65 = Added ∧ parseStatus zero 68 = Deleted ∧
        parseStatus zero 77 = Modified ∧ parseStatus zero 82 = Renamed ∧
        parseStatus zero 67 = Copied ∧
        ∀ b : UInt8, b ≠ 65 → b ≠ 68 → b ≠ 77 → b ≠ 82 → b ≠ 67 → parseStatus zero b = zero) ∧
      ∀ it ∈ items, it.status ≠ Renamed → it.status ≠ Copied → it.fileName = it.name := by
  have hscan := scanLines_eq_textLines content hfit
  have hparse : parseStatus zero 65 = Added ∧ parseStatus zero 68 = Deleted ∧
      parseStatus zero 77 = Modified ∧ parseStatus zero 82 = Renamed ∧
      parseStatus zero 67 = Copied ∧
      ∀ b : UInt8, b ≠ 65 → b ≠ 68 → b ≠ 77 → b ≠ 82 → b ≠ 67 → parseStatus zero b = zero := by
    refine ⟨rfl, rfl, rfl, rfl, rfl, ?_⟩
    intro b h65 h68 h77 h82 h67
    simp [parseStatus, h65, h68, h77, h82, h67]
  have hverbatim : ∀ items, createListItems zero content names = some items →
      ∀ it ∈ items, it.status ≠ Renamed → it.status ≠ Copied → it.fileName = it.name := by
    intro items hrun it hit hr hc
    have hshape2 := createListItems_item_shape zero content names items hrun it hit
    have hf : it.fileName = actualFileName it.status it.name := by
      conv_lhs => rw [hshape2]
      rfl
    rw [hf]
    exact actualFileName_of_status _ _ ⟨hr, hc⟩
  cases hlines : textLines content with
  | nil =>
    rw [hlines] at hscan
    have hrun : createListItems zero content names = some [] := by
      simp only [createListItems, hscan]
    exact ⟨[], hrun, by simp [nonBlankLines], hparse, hverbatim [] hrun⟩
  | cons first rest =>
    rw [hlines] at hscan hshape hflags
    simp only [List.tail_cons, List.headD_cons] at hshape hflags ⊢
    obtain ⟨items, h1, -, -⟩ :=
      createListItemsLoop_items zero names
        ((Split first).map (fun c => decide (c = bytes "true")))
        rest 0 hshape (by simpa using hflags)
    have hrun : createListItems zero content names = some items := by
      simp only [createListItems, hscan]
      exact h1
    refine ⟨items, hrun, ?_, hparse, hverbatim items hrun⟩
    rw [createListItemsLoop_eq_zipWith zero names _ rest 0 items h1]
    apply map_zipWith_left
    · intro a b
      rfl
    · simpa using hflags

/-- C17, witness: the entries "A a", "X \x7bb => c\x7d" and "R r" with the
zero value `unnamed`: three items, the second with the zero value as status
and its path kept verbatim. -/
theorem createListItems_status_of_first_byte_witness :
    ∃ items, createListItems status.unnamed (bytes "true false true\nA a\nX \x7bb => c\x7d\nR r") []
        = some items ∧
      items.map (fun it => (it.status, it.name, it.fileName))
        = [(Added, bytes "a", bytes "a"),
           (status.unnamed, bytes "\x7bb => c\x7d", bytes "\x7bb => c\x7d"),
           (Renamed, bytes "r", bytes "r")] := by
  obtain ⟨items, h1, -, -, -⟩ :=
    createListItems_status_of_first_byte status.unnamed
      (bytes "true false true\nA a\nX \x7bb => c\x7d\nR r") []
      (by decide) (by decide) (by decide)
  refine ⟨items, h1, ?_⟩
  have h2 : createListItems status.unnamed
      (bytes "true false true\nA a\nX \x7bb => c\x7d\nR r") []
      = some [⟨Added, bytes "a", bytes "a", false, true⟩,
          ⟨status.unnamed, bytes "\x7bb => c\x7d", bytes "\x7bb => c\x7d", false, false⟩,
          ⟨Renamed, bytes "r", bytes "r", false, true⟩] := by decide
  rw [h2] at h1
  rw [← Option.some.inj h1]
  decide

/-- C17, counterexample: after a first line of 65536 letters "t", the
non-blank line "X a", whose first character is none of the five, produces no
item: the first line does not fit the scanner's buffer and `createListItems`
returns the empty sequence. -/
theorem createListItems_unknown_status_counterexample :
    splitByte 10 (longLine ++ 10 :: bytes "X a") = [longLine, bytes "X a"] ∧
    nonBlankLines [bytes "X a"] = [bytes "X a"] ∧
    (Split longLine).length = 1 ∧
    ∀ zero names, createListItems zero (longLine ++ 10 :: bytes "X a") names = some [] := by
  refine ⟨?_, by decide, ?_, ?_⟩
  · rw [splitByte_append_sep 10 _ longLine (not_mem_longLine 10 (by decide))]
    have h : splitByte 10 (bytes "X a") = [bytes "X a"] := by decide
    rw [h]
  · unfold Split
    rw [splitByte_of_not_mem 32 longLine (not_mem_longLine 32 (by decide))]
    rfl
  · exact fun zero names =>
      createListItems_long_first zero names longLine (bytes "X a")
        (not_mem_longLine 10 (by decide)) (Nat.le_of_eq longLine_length.symm)

/-! ## The registry and the selected flags -/

theorem mem_addCheckedItems (s : Operation) (x : SelectedItem) :
    ∀ (items : List item) (c : MainContext),
      x ∈ (addCheckedItems s items c).CheckedItems ↔
        x ∈ c.CheckedItems ∨ ∃ it ∈ items, it.selected = true ∧ x = selectedFileOf s it.fileName := by
  intro items
  induction items with
  | nil => intro c; simp [addCheckedItems]
  | cons a t ih =>
    intro c
    simp only [addCheckedItems]
    rw [ih]
    by_cases ha : a.selected = true
    · simp only [ha, if_true, mem_AddCheckedItem, List.mem_cons]
      constructor
      · rintro ((h | h) | ⟨it, hit, hs, hx⟩)
        · exact Or.inl h
        · exact Or.inr ⟨a, Or.inl rfl, ha, h⟩
        · exact Or.inr ⟨it, Or.inr hit, hs, hx⟩
      · rintro (h | ⟨it, hit | hit, hs, hx⟩)
        · exact Or.inl (Or.inl h)
        · exact Or.inl (Or.inr (hit ▸ hx))
        · exact Or.inr ⟨it, hit, hs, hx⟩
    · simp only [ha, Bool.false_eq_true, if_false, List.mem_cons]
      constructor
      · rintro (h | ⟨it, hit, hs, hx⟩)
        · exact Or.inl h
        · exact Or.inr ⟨it, Or.inr hit, hs, hx⟩
      · rintro (h | ⟨it, hit | hit, hs, hx⟩)
        · exact Or.inl h
        · exact absurd (hit ▸ hs) ha
        · exact Or.inr ⟨it, hit, hs, hx⟩

theorem SetSelectedItem_CheckedItems (c : MainContext) (x : Option SelectedItem) :
    (SetSelectedItem c x).1.CheckedItems = c.CheckedItems := by
  cases x <;> rfl

theorem isFile_selectedFileOf (s : Operation) (name : GoString) :
    (selectedFileOf s name).isFile = true := rfl

theorem registryConsistent_congr (s t : Operation) (hf : t.files = s.files)
    (hc : t.context.CheckedItems = s.context.CheckedItems) (hr : t.revision = s.revision)
    (h : registryConsistent s) : registryConsistent t := by
  intro x
  have hx := h x
  simp only [selectedFileOf] at hx ⊢
  rw [hf, hc, hr]
  exact hx

theorem Update_load_consistent (zero : status) (run : JJ → CmdResult) (s s1 : Operation)
    (summary : GoString) (selectedFiles : List GoString) (cmd : Cmd)
    (h : Update zero run s (Msg.updateCommitStatusMsg summary selectedFiles) = some (s1, cmd)) :
    registryConsistent s1 := by
  simp only [Update] at h
  cases hitems : createListItems zero summary selectedFiles with
  | none => simp [hitems] at h
  | some items =>
    simp only [hitems, Option.some.injEq, Prod.mk.injEq] at h
    obtain ⟨hs1, -⟩ := h
    intro x
    have hfiles : s1.files = items := by rw [← hs1]; rfl
    have hrev : selectedFileOf s1 = selectedFileOf s := by rw [← hs1]; rfl
    have hclear : ∀ y, y ∈ (ClearCheckedFiles s.context).CheckedItems →
        y.isFile = true → False := by
      intro y hy hfile
      simp only [ClearCheckedFiles, List.mem_filter, Bool.not_eq_true'] at hy
      rw [hy.2] at hfile
      exact absurd hfile (by simp)
    by_cases hlen : 0 < items.length
    · have hctx : s1.context.CheckedItems
          = (addCheckedItems s items (ClearCheckedFiles s.context)).CheckedItems := by
        rw [← hs1]
        simp only [setItems, hlen, if_true, SetSelectedItem_CheckedItems]
      rw [hctx, hfiles, hrev, mem_addCheckedItems]
      constructor
      · rintro ⟨h1 | h1, hfile⟩
        · exact absurd (hclear x h1 hfile) id
        · exact h1
      · rintro ⟨it, hit, hsel, hx⟩
        exact ⟨Or.inr ⟨it, hit, hsel, hx⟩, by rw [hx]; rfl⟩
    · have hctx : s1.context.CheckedItems = (ClearCheckedFiles s.context).CheckedItems := by
        rw [← hs1]
        simp only [setItems, hlen, if_false]
      have hnil : items = [] := List.length_eq_zero.mp (by omega)
      rw [hctx, hfiles, hnil]
      constructor
      · rintro ⟨h1, hfile⟩
        exact absurd (hclear x h1 hfile) id
      · rintro ⟨it, hit, -, -⟩
        simp at hit

theorem index_eq_of_nodup_map {α β : Type} (f : α → β) (l : List α) (i j : Nat) (a b : α)
    (hnd : (l.map f).Nodup) (hi : l[i]? = some a) (hj : l[j]? = some b) (hab : f a = f b) :
    i = j := by
  obtain ⟨hi1, hi2⟩ := List.getElem?_eq_some.mp hi
  obtain ⟨hj1, hj2⟩ := List.getElem?_eq_some.mp hj
  have hi3 : i < (l.map f).length := by simpa using hi1
  have hj3 : j < (l.map f).length := by simpa using hj1
  have heq : (l.map f)[i] = (l.map f)[j] := by
    rw [List.getElem_map, List.getElem_map, hi2, hj2, hab]
  exact (List.Nodup.getElem_inj_iff hnd).mp heq

theorem map_set_same {α β : Type} (f : α → β) (l : List α) (i : Nat) (a b : α)
    (hi : l[i]? = some a) (hab : f b = f a) : (l.set i b).map f = l.map f := by
  rw [List.map_set]
  apply List.ext_getElem?
  intro j
  by_cases hj : i = j
  · subst hj
    have hlt : i < l.length := (List.getElem?_eq_some.mp hi).1
    rw [List.getElem?_set_self (by simpa using hlt), List.getElem?_map, hi, hab]
    rfl
  · rw [List.getElem?_set_ne hj]

theorem mem_set_iff_index {α : Type} (l : List α) (i : Nat) (b x : α) (hi : i < l.length) :
    x ∈ l.set i b ↔ x = b ∨ ∃ j, j ≠ i ∧ l[j]? = some x := by
  rw [List.mem_iff_getElem?]
  constructor
  · rintro ⟨j, hj⟩
    by_cases hij : i = j
    · subst hij
      rw [List.getElem?_set_self hi] at hj
      exact Or.inl (Option.some.inj hj).symm
    · rw [List.getElem?_set_ne hij] at hj
      exact Or.inr ⟨j, fun e => hij e.symm, hj⟩
  · rintro (h | ⟨j, hji, hj⟩)
    · exact ⟨i, by rw [List.getElem?_set_self hi, h]⟩
    · exact ⟨j, by rw [List.getElem?_set_ne (fun e => hji e.symm)]; exact hj⟩

theorem toggleSelect_parts (s : Operation) (cur : item) :
    (toggleSelect s cur).files = s.files.set s.cursor { cur with selected := !cur.selected } ∧
    (toggleSelect s cur).context
      = (if (!cur.selected) = true then AddCheckedItem s.context (selectedFileOf s cur.fileName)
         else RemoveCheckedItem s.context (selectedFileOf s cur.fileName)) ∧
    (toggleSelect s cur).revision = s.revision := by
  unfold toggleSelect
  exact ⟨(cursorDown_files _).1, (cursorDown_files _).2, (cursorDown_cursor _).1⟩

theorem toggleSelect_consistent (s : Operation) (cur : item)
    (hcur : s.files[s.cursor]? = some cur) (hcons : registryConsistent s)
    (hnd : (s.files.map (fun it => it.fileName)).Nodup) :
    registryConsistent (toggleSelect s cur) ∧
      ((toggleSelect s cur).files.map (fun it => it.fileName)).Nodup := by
  obtain ⟨hfiles, hctx, hrev⟩ := toggleSelect_parts s cur
  have hlt : s.cursor < s.files.length := (List.getElem?_eq_some.mp hcur).1
  have hsel : selectedFileOf (toggleSelect s cur) = selectedFileOf s := by
    funext name
    simp only [selectedFileOf, hrev]
  have hmem : ∀ it, it ∈ s.files ↔ ∃ j, s.files[j]? = some it :=
    fun it => List.mem_iff_getElem?
  constructor
  · intro x
    rw [hfiles, hctx, hsel]
    have hx := hcons x
    cases hs : cur.selected with
    | false =>
      simp only [Bool.not_false, if_true, mem_AddCheckedItem]
      constructor
      · rintro ⟨h1 | h1, hfile⟩
        · obtain ⟨it, hit, hits, hxit⟩ := hx.mp ⟨h1, hfile⟩
          obtain ⟨j, hj⟩ := (hmem it).mp hit
          have hji : j ≠ s.cursor := by
            intro e
            rw [e, hcur] at hj
            rw [← Option.some.inj hj, hs] at hits
            exact absurd hits (by simp)
          exact ⟨it, (mem_set_iff_index _ _ _ _ hlt).mpr (Or.inr ⟨j, hji, hj⟩), hits, hxit⟩
        · exact ⟨_, (mem_set_iff_index _ _ _ _ hlt).mpr (Or.inl rfl), rfl, h1⟩
      · rintro ⟨it, hit, hits, hxit⟩
        rcases (mem_set_iff_index _ _ _ _ hlt).mp hit with e | ⟨j, -, hj⟩
        · rw [e] at hxit
          exact ⟨Or.inr hxit, by rw [hxit]; rfl⟩
        · have := hx.mpr ⟨it, (hmem it).mpr ⟨j, hj⟩, hits, hxit⟩
          exact ⟨Or.inl this.1, this.2⟩
    | true =>
      simp only [Bool.not_true, Bool.false_eq_true, if_false, mem_RemoveCheckedItem]
      constructor
      · rintro ⟨⟨h1, hne⟩, hfile⟩
        obtain ⟨it, hit, hits, hxit⟩ := hx.mp ⟨h1, hfile⟩
        obtain ⟨j, hj⟩ := (hmem it).mp hit
        have hji : j ≠ s.cursor := by
          intro e
          rw [e, hcur] at hj
          rw [← Option.some.inj hj] at hxit
          exact hne hxit
        exact ⟨it, (mem_set_iff_index _ _ _ _ hlt).mpr (Or.inr ⟨j, hji, hj⟩), hits, hxit⟩
      · rintro ⟨it, hit, hits, hxit⟩
        rcases (mem_set_iff_index _ _ _ _ hlt).mp hit with e | ⟨j, hji, hj⟩
        · rw [e] at hits
          exact absurd hits (by simp)
        · have := hx.mpr ⟨it, (hmem it).mpr ⟨j, hj⟩, hits, hxit⟩
          refine ⟨⟨this.1, ?_⟩, this.2⟩
          intro hxcur
          rw [hxit] at hxcur
          have hname : it.fileName = cur.fileName := by
            simp only [selectedFileOf, SelectedItem.file.injEq, SelectedFile.mk.injEq,
              true_and] at hxcur
            exact hxcur
          exact hji (index_eq_of_nodup_map (fun it => it.fileName) s.files j s.cursor it cur
            hnd hj hcur hname)
  · have hmap : (s.files.set s.cursor { cur with selected := !cur.selected }).map
        (fun it : item => it.fileName) = s.files.map (fun it : item => it.fileName) :=
      map_set_same (fun it : item => it.fileName) s.files s.cursor cur
        { cur with selected := !cur.selected } hcur rfl
    rw [hfiles, hmap]
    exact hnd

theorem cursor_of_current (s : Operation) (cur : item) (h : current s = some (some cur)) :
    s.files[s.cursor]? = some cur := by
  unfold current at h
  split at h
  · simp at h
  · rw [List.get?_eq_getElem?] at h
    cases hget : s.files[s.cursor]? with
    | none => simp [hget] at h
    | some a =>
      simp only [hget, Option.map_some', Option.some.injEq] at h
      rw [h]

theorem Update_toggle_consistent (zero : status) (run : JJ → CmdResult) (s s1 : Operation)
    (k : String) (cmd : Cmd) (hcons : registryConsistent s)
    (hnd : (s.files.map (fun it => it.fileName)).Nodup)
    (hkey : keyCase s.keyMap k = some KeyCase.ToggleSelect)
    (h : Update zero run s (Msg.KeyMsg k) = some (s1, cmd)) :
    registryConsistent s1 ∧ (s1.files.map (fun it => it.fileName)).Nodup := by
  rw [Update_default zero run s (Msg.KeyMsg k) rfl] at h
  have hstep : ∀ t : Operation, ∀ cmd0 : Cmd,
      registryConsistent t → (t.files.map (fun it => it.fileName)).Nodup →
      (if t.cursor ≠ s.cursor then
          match current t with
          | some (some cur) =>
            some ({ t with context :=
                      (SetSelectedItem t.context (some (selectedFileOf t cur.fileName))).1 },
                  Cmd.Batch cmd0
                    (SetSelectedItem t.context (some (selectedFileOf t cur.fileName))).2)
          | _ => none
        else some (t, cmd0)) = some (s1, cmd) →
      registryConsistent s1 ∧ (s1.files.map (fun it => it.fileName)).Nodup := by
    intro t cmd0 ht hndt hres
    split at hres
    · split at hres
      · simp only [Option.some.injEq, Prod.mk.injEq] at hres
        rw [← hres.1]
        exact ⟨registryConsistent_congr t _ rfl (SetSelectedItem_CheckedItems _ _) rfl ht, hndt⟩
      · exact absurd hres (by simp)
    · simp only [Option.some.injEq, Prod.mk.injEq] at hres
      rw [← hres.1]
      exact ⟨ht, hndt⟩
  cases hconf : s.confirmation with
  | some c =>
    have hint : internalUpdate s (Msg.KeyMsg k)
        = some ({ s with confirmation := some (confirmationUpdate c k).1 },
            (confirmationUpdate c k).2) := by
      simp only [internalUpdate, hconf]
    rw [hint] at h
    exact hstep { s with confirmation := some (confirmationUpdate c k).1 }
      (confirmationUpdate c k).2 (registryConsistent_congr s _ rfl rfl rfl hcons) hnd h
  | none =>
    rw [internalUpdate_of_keyCase s k _ hconf hkey] at h
    rcases hcur : current s with _ | _ | cur
    · have hint : keyCaseBody s KeyCase.ToggleSelect = none := by
        simp only [keyCaseBody, hcur]
      rw [hint] at h
      exact absurd h (by simp)
    · have hint : keyCaseBody s KeyCase.ToggleSelect = some (s, Cmd.nil) := by
        simp only [keyCaseBody, hcur]
      rw [hint] at h
      exact hstep s Cmd.nil hcons hnd h
    · have hint : keyCaseBody s KeyCase.ToggleSelect = some (toggleSelect s cur, Cmd.nil) := by
        simp only [keyCaseBody, hcur]
      rw [hint] at h
      obtain ⟨h1, h2⟩ := toggleSelect_consistent s cur (cursor_of_current s cur hcur) hcons hnd
      exact hstep (toggleSelect s cur) Cmd.nil h1 h2 h

theorem Reached_invariant (zero : status) (run : JJ → CmdResult) (s : Operation)
    (h : Reached zero run s) :
    registryConsistent s ∧ (s.files.map (fun it => it.fileName)).Nodup := by
  induction h with
  | load s0 s1 summary selectedFiles cmd hupd hnd =>
    exact ⟨Update_load_consistent zero run s0 s1 summary selectedFiles cmd hupd, hnd⟩
  | toggle s0 s1 k cmd _ hkey hupd ih =>
    exact Update_toggle_consistent zero run s0 s1 k cmd ih.1 ih.2 hkey hupd

/-- C18 (amended): starting from any state produced by handling an
`updateCommitStatusMsg` whose items have pairwise distinct fileNames, and
after any sequence of ToggleSelect keys and further such reloads, the file
records held as checked in the shared registry are exactly the (revisionId,
commitId, fileName) records of the items whose selected flag is true. -/
theorem registry_consistent_of_reached (zero : status) (run : JJ → CmdResult) (s : Operation)
    (h : Reached zero run s) (x : SelectedItem) :
    (x ∈ s.context.CheckedItems ∧ x.isFile = true) ↔
      ∃ it ∈ s.files, it.selected = true ∧
        x = SelectedItem.file
              { ChangeId := s.revision.GetChangeId, CommitId := s.revision.CommitId,
                File := it.fileName } :=
  (Reached_invariant zero run s h).1 x

/-- C18, witness: the two files a.txt and b.txt are loaded into the empty
view, then the ToggleSelect key " " checks a.txt: the registry holds the
record of a.txt and no record of b.txt. -/
theorem registry_consistent_of_reached_witness :
    ∃ s2, Reached status.unnamed demoRun s2 ∧
      s2.files = [demoItem "a.txt" true, demoItem "b.txt" false] ∧
      s2.context.CheckedItems
        = [SelectedItem.file
            { ChangeId := bytes "rev", CommitId := bytes "c0", File := bytes "a.txt" }] ∧
      ∀ x, (x ∈ s2.context.CheckedItems ∧ x.isFile = true) ↔
        ∃ it ∈ s2.files, it.selected = true ∧
          x = SelectedItem.file
                { ChangeId := s2.revision.GetChangeId, CommitId := s2.revision.CommitId,
                  File := it.fileName } := by
  have hload : Reached status.unnamed demoRun
      { demoState [demoItem "a.txt" false, demoItem "b.txt" false] 0 with
        context :=
          { CheckedItems := [],
            SelectedItem :=
              some (SelectedItem.file
                { ChangeId := bytes "rev", CommitId := bytes "c0", File := bytes "a.txt" }) } } :=
    Reached.load (demoState [] 0) _ (bytes "false false\nM a.txt\nM b.txt\n") []
      (Cmd.selectionChanged
        (SelectedItem.file
          { ChangeId := bytes "rev", CommitId := bytes "c0", File := bytes "a.txt" }))
      (by decide) (by decide)
  have htoggle : Reached status.unnamed demoRun
      { demoState [demoItem "a.txt" true, demoItem "b.txt" false] 1 with
        context :=
          { CheckedItems :=
              [SelectedItem.file
                { ChangeId := bytes "rev", CommitId := bytes "c0", File := bytes "a.txt" }],
            SelectedItem :=
              some (SelectedItem.file
                { ChangeId := bytes "rev", CommitId := bytes "c0", File := bytes "b.txt" }) } } :=
    Reached.toggle _ _ " "
      (Cmd.Batch Cmd.nil
        (Cmd.selectionChanged
          (SelectedItem.file
            { ChangeId := bytes "rev", CommitId := bytes "c0", File := bytes "b.txt" })))
      hload (by decide) (by decide)
  exact ⟨_, htoggle, rfl, rfl,
    fun x => registry_consistent_of_reached status.unnamed demoRun _ htoggle x⟩

/-- C18, counterexample: a status text that lists a.txt twice, both marked
selected by the reload; the ToggleSelect key unchecks the first and removes
the record, so the registry holds no file record while the second item is
still selected. -/
theorem registry_duplicate_names_counterexample :
    ∃ s1 s2 cmd1 cmd2,
      Update status.unnamed demoRun (demoState [] 0)
          (Msg.updateCommitStatusMsg (bytes "false false\nM a.txt\nM a.txt") [bytes "a.txt"])
        = some (s1, cmd1) ∧
      keyCase s1.keyMap " " = some KeyCase.ToggleSelect ∧
      Update status.unnamed demoRun s1 (Msg.KeyMsg " ") = some (s2, cmd2) ∧
      s2.files.map (fun it => (it.fileName, it.selected))
        = [(bytes "a.txt", false), (bytes "a.txt", true)] ∧
      s2.context.CheckedItems = [] :=
  ⟨_, _, _, _, rfl, by decide, rfl, by decide, by decide⟩

/-! ## Split and Restore on an empty list -/

/-- C19, the code at the failing input: on the empty list with no active
confirmation, `getSelectedFiles` returns the empty sequence and the current
item is nil; the Split key "s" and the Restore key "r" then read the fileName
of that nil item for their "Interactive" option and panic, while the Diff key
"d", the ToggleSelect key " " and the key "*" of the files history return the
state unchanged with the nil command. -/
theorem split_restore_on_empty_list_panic :
    getSelectedFiles (demoState [] 0) = some [] ∧
    current (demoState [] 0) = some none ∧
    internalUpdate (demoState [] 0) (Msg.KeyMsg "s") = none ∧
    internalUpdate (demoState [] 0) (Msg.KeyMsg "r") = none ∧
    internalUpdate (demoState [] 0) (Msg.KeyMsg "d") = some (demoState [] 0, Cmd.nil) ∧
    internalUpdate (demoState [] 0) (Msg.KeyMsg " ") = some (demoState [] 0, Cmd.nil) ∧
    internalUpdate (demoState [] 0) (Msg.KeyMsg "*") = some (demoState [] 0, Cmd.nil) :=
  ⟨by decide, by decide, by decide, by decide, by decide, by decide, by decide⟩

end Details
